import Mathlib

/-!
Verification development for the `gdiv` hemisphere-binning core.

This file shallowly embeds the algorithmic core of the repository:

* `gdivclust/gdivsymm.py` — symmetry policies (`KlemsSymmetry`,
  `ReinhartSymmetry.patches`, `ReinhartRotSymmetry`, `ReinhartCurveSymmetry`,
  `ReinhartProfSymmetry`, `FullResSymmetry`) and the shared
  `SymmetryBase.clusterCoeffs` accumulation/normalisation;
* `gdivmeas/gdivmeas_fullres.py` — the fisheye pixel/index serialisation
  (`pix2Idx` and its helper lambdas `alpha`, `segArea`, `chordLen`);
* `gdivsim/reinhartSolidAngles.py` — per-bin differential solid angles and
  cosines of the Reinhart basis.

Discrete/integer computations are embedded computably over `ℕ`/`ℤ`/`ℚ`
(exact arithmetic in place of IEEE doubles); transcendental quantities are
embedded over `ℝ` with `Real.sin`/`Real.cos`/`Real.arccos`/`Real.sqrt`.
Python `int()` truncation toward zero is modelled by `intTrunc`.
-/

set_option maxRecDepth 8000

namespace GDiv

/-! ### Partition bookkeeping

A list of clusters (each a list of bin indices) partitions `[0, N)` when
every natural below `N` occurs exactly once in the concatenation of all
clusters and nothing else occurs.  This captures the spec's requirement
that clusters be pairwise disjoint, duplicate-free and exhaustive. -/

/-- The cluster list `cls` is a partition of the bin range `[0, N)`:
every bin index below `N` lies in exactly one cluster (counted with
multiplicity over the concatenation), and no other index occurs. -/
def isPartition (cls : List (List ℕ)) (N : ℕ) : Prop :=
  ∀ n : ℕ, cls.flatten.count n = if n < N then 1 else 0

/-- Fold a list of naturals into a bit mask with one bit per element. -/
def maskOf (l : List ℕ) : ℕ :=
  l.foldl (fun m i => m ||| (1 <<< i)) 0

lemma maskOf_testBit (l : List ℕ) (m j : ℕ) :
    (l.foldl (fun m i => m ||| (1 <<< i)) m).testBit j
      = (m.testBit j || decide (j ∈ l)) := by
  induction l generalizing m with
  | nil => simp
  | cons a t ih =>
      simp only [List.foldl_cons, ih, Nat.testBit_or, List.mem_cons]
      rw [Nat.shiftLeft_eq, one_mul, Nat.testBit_two_pow]
      by_cases hja : j = a <;> by_cases hjt : j ∈ t <;> simp [hja, hjt, eq_comm]

lemma mem_iff_lt_of_mask (l : List ℕ) (N : ℕ)
    (h : maskOf l = 2 ^ N - 1) : ∀ j, j ∈ l ↔ j < N := by
  intro j
  have := maskOf_testBit l 0 j
  rw [maskOf] at h
  rw [h, Nat.testBit_two_pow_sub_one, Nat.zero_testBit, Bool.false_or] at this
  exact ⟨fun hj => by simpa [hj] using this.symm,
    fun hj => by
      by_contra hmem
      simp [hj, hmem] at this⟩

lemma count_range (N n : ℕ) :
    (List.range N).count n = if n < N then 1 else 0 := by
  induction N with
  | zero => simp
  | succ N ih =>
      have hcs : List.count n [N] = if n = N then 1 else 0 := by
        by_cases h : n = N <;> simp [h]
      rw [List.range_succ, List.count_append, ih, hcs]
      split_ifs <;> omega

lemma orFold_testBit (ms : List ℕ) (m j : ℕ) :
    (ms.foldl (· ||| ·) m).testBit j
      = (m.testBit j || ms.any (fun x => x.testBit j)) := by
  induction ms generalizing m with
  | nil => simp
  | cons a t ih =>
      rw [List.foldl_cons, ih, List.any_cons, Nat.testBit_or, Bool.or_assoc]

lemma maskOf_testBit' (c : List ℕ) (j : ℕ) :
    (maskOf c).testBit j = decide (j ∈ c) := by
  have := maskOf_testBit c 0 j
  rwa [Nat.zero_testBit, Bool.false_or] at this

lemma clusterMask_testBit (cls : List (List ℕ)) (j : ℕ) :
    ((cls.map maskOf).foldl (· ||| ·) 0).testBit j
      = decide (j ∈ cls.flatten) := by
  rw [orFold_testBit, Nat.zero_testBit, Bool.false_or]
  by_cases hmem : j ∈ cls.flatten
  · obtain ⟨c, hc, hjc⟩ := List.mem_flatten.mp hmem
    rw [decide_eq_true hmem]
    exact List.any_eq_true.mpr
      ⟨maskOf c, List.mem_map_of_mem _ hc,
        by rw [maskOf_testBit']; exact decide_eq_true hjc⟩
  · rw [decide_eq_false hmem]
    refine List.any_eq_false.mpr fun x hx => ?_
    obtain ⟨c, hc, rfl⟩ := List.mem_map.mp hx
    rw [maskOf_testBit']
    simp only [decide_eq_true_eq]
    exact fun hjc => hmem (List.mem_flatten.mpr ⟨c, hc, hjc⟩)

/-- Bridge from the executable per-cluster mask/length check to the
partition property.  The per-cluster formulation keeps kernel evaluation
shallow even for the 2305-bin table. -/
lemma isPartition_of_check (cls : List (List ℕ)) (N : ℕ)
    (hlen : (cls.map List.length).sum = N)
    (hmask : (cls.map maskOf).foldl (· ||| ·) 0 = 2 ^ N - 1) :
    isPartition cls N := by
  have hmem : ∀ j, j ∈ cls.flatten ↔ j < N := by
    intro j
    have := clusterMask_testBit cls j
    rw [hmask, Nat.testBit_two_pow_sub_one] at this
    constructor
    · intro hj; simpa [hj] using this.symm
    · intro hj
      by_contra hmem
      simp [hj, hmem] at this
  have hsub : (List.range N).Subperm cls.flatten :=
    List.subperm_of_subset (List.nodup_range N)
      (fun x hx => (hmem x).mpr (List.mem_range.mp hx))
  have hperm : (List.range N).Perm cls.flatten :=
    hsub.perm_of_length_le (by rw [List.length_flatten, hlen, List.length_range])
  intro n
  rw [← hperm.count_eq, count_range]

/-! ### Klems symmetry (`KlemsSymmetry.clusters`)

`clusters(numCoeff)` raises `ValueError` unless `numCoeff = 145`; otherwise
it returns the four fixed clusters `[0]`, `arange(1,45)`, `arange(45,93)`,
`arange(93,145)`.  The per-instance memoisation cache is stateless
bookkeeping (recomputation is idempotent) and is not modelled. -/

/-- Error raised by the symmetry layer (`ValueError` in the source). -/
inductive SymmError
  | invalidBasisSize
  | indexError
  | emptyInput
  | binNotFound
  | binOverlap
  deriving DecidableEq, Repr

instance {ε α : Type} [DecidableEq ε] [DecidableEq α] :
    DecidableEq (Except ε α) := fun a b =>
  match a, b with
  | .error e, .error f =>
      if h : e = f then .isTrue (by rw [h]) else .isFalse (by simp [h])
  | .ok x, .ok y =>
      if h : x = y then .isTrue (by rw [h]) else .isFalse (by simp [h])
  | .error _, .ok _ => .isFalse (by simp)
  | .ok _, .error _ => .isFalse (by simp)

/-- The fixed Klems cluster table: `CLUST0, CLUST30, CLUST45, CLUST60`. -/
def klemsClusterList : List (List ℕ) :=
  [[0], List.range' 1 44, List.range' 45 48, List.range' 93 52]

/-- Embedding of `KlemsSymmetry.clusters`. -/
def klemsClusters (numCoeff : ℕ) : Except SymmError (List (List ℕ)) :=
  if numCoeff ≠ 145 then .error .invalidBasisSize
  else .ok klemsClusterList

lemma klems_partition : isPartition klemsClusterList 145 :=
  isPartition_of_check _ _ (by decide) (by decide)

/-- C8: `KlemsSymmetry.clusters(145)` returns exactly the 4 clusters
`{0}`, `[1,45)`, `[45,93)`, `[93,145)` of sizes `1, 44, 48, 52`, and for
every other `numCoeff` it raises the invalid-basis-size `ValueError`. -/
theorem klems_clusters_spec :
    klemsClusters 145
        = .ok [[0], List.range' 1 44, List.range' 45 48, List.range' 93 52]
      ∧ klemsClusterList.map List.length = [1, 44, 48, 52]
      ∧ ∀ n : ℕ, n ≠ 145 → klemsClusters n = .error .invalidBasisSize := by
  refine ⟨rfl, rfl, fun n hn => ?_⟩
  rw [klemsClusters, if_pos hn]

/-- Witness for `klems_clusters_spec` at the concrete size 144. -/
theorem klems_clusters_spec_witness :
    klemsClusters 144 = .error .invalidBasisSize :=
  klems_clusters_spec.2.2 144 (by decide)

/-! ### Reinhart profile-angle symmetry (`ReinhartProfSymmetry.clusters`)

The source returns a fixed, hand-authored table of 13 bin-index lists
(`CLUST1` .. `CLUST13`) for the one supported subdivision factor (MF = 4,
`numCoeff = 2305`); the `numCoeff` argument only drives the memoisation
cache and is never validated. -/

/-- The fixed profile-angle cluster table `CLUST1 .. CLUST13`. -/
def profClusterList : List (List ℕ) := [
  [86, 87, 88, 89, 90, 207, 208, 209],
  [81, 82, 83, 84, 85, 91, 92, 93, 94, 95, 201, 202, 203, 204, 205, 206, 210, 211, 212, 213, 
   214, 215, 322, 323, 324, 325, 326, 327, 328, 329, 330, 331, 332, 333, 334, 442, 443, 444, 
   445, 446, 447, 448, 449, 450, 451, 452, 453, 454, 563, 564, 565, 566, 567, 568, 569, 570, 
   571, 572, 573, 684, 685, 686, 687, 688, 689, 690, 691, 692, 807, 808, 809],
  [76, 77, 78, 79, 80, 96, 97, 98, 99, 100, 196, 197, 198, 199, 200, 216, 217, 218, 219, 220, 
   316, 317, 318, 319, 320, 321, 335, 336, 337, 338, 339, 340, 436, 437, 438, 439, 440, 441, 
   455, 456, 457, 458, 459, 460, 557, 558, 559, 560, 561, 562, 574, 575, 576, 577, 578, 579, 
   677, 678, 679, 680, 681, 682, 683, 693, 694, 695, 696, 697, 698, 699, 797, 798, 799, 800, 
   801, 802, 803, 804, 805, 806, 810, 811, 812, 813, 814, 815, 816, 817, 818, 819, 918, 919, 
   920, 921, 922, 923, 924, 925, 926, 927, 928, 929, 930, 931, 932, 933, 934, 935, 936, 937, 
   938, 1023, 1024, 1025, 1026, 1027, 1028, 1029, 1030, 1031, 1032, 1033, 1034, 1035, 1036, 
   1037, 1038, 1120, 1121, 1122, 1123, 1124, 1125, 1126, 1127, 1128, 1129, 1130, 1131, 1132, 
   1218, 1219, 1220, 1221, 1222, 1223, 1224, 1225, 1226, 1227],
  [71, 72, 73, 74, 75, 101, 102, 103, 104, 105, 191, 192, 193, 194, 195, 221, 222, 223, 224, 
   225, 311, 312, 313, 314, 315, 341, 342, 343, 344, 345, 431, 432, 433, 434, 435, 461, 462, 
   463, 464, 465, 551, 552, 553, 554, 555, 556, 580, 581, 582, 583, 584, 585, 671, 672, 673, 
   674, 675, 676, 700, 701, 702, 703, 704, 705, 791, 792, 793, 794, 795, 796, 820, 821, 822, 
   823, 824, 825, 912, 913, 914, 915, 916, 917, 939, 940, 941, 942, 943, 944, 1018, 1019, 
   1020, 1021, 1022, 1039, 1040, 1041, 1042, 1043, 1114, 1115, 1116, 1117, 1118, 1119, 1133, 
   1134, 1135, 1136, 1137, 1138, 1139, 1210, 1211, 1212, 1213, 1214, 1215, 1216, 1217, 1228, 
   1229, 1230, 1231, 1232, 1233, 1234, 1235, 1307, 1308, 1309, 1310, 1311, 1312, 1313, 1314, 
   1315, 1316, 1317, 1318, 1319, 1320, 1321, 1322, 1323, 1324, 1325, 1326, 1327, 1328, 1329, 
   1330, 1403, 1404, 1405, 1406, 1407, 1408, 1409, 1410, 1411, 1412, 1413, 1414, 1415, 1416, 
   1417, 1418, 1419, 1420, 1421, 1422, 1423, 1424, 1425, 1426, 1500, 1501, 1502, 1503, 1504, 
   1505, 1506, 1507, 1508, 1509, 1510, 1511, 1512, 1513, 1514, 1515, 1516, 1517, 1518, 1519, 
   1520, 1521, 1597, 1598, 1599, 1600, 1601, 1602, 1603, 1604, 1605, 1606, 1607, 1608, 1609, 
   1610, 1611, 1612, 1613, 1614, 1615, 1696, 1697, 1698, 1699, 1700, 1701, 1702, 1703, 1704, 
   1705, 1706, 1707, 1708, 1709],
  [66, 67, 68, 69, 70, 106, 107, 108, 109, 110, 186, 187, 188, 189, 190, 226, 227, 228, 229, 
   230, 306, 307, 308, 309, 310, 346, 347, 348, 349, 350, 426, 427, 428, 429, 430, 466, 467, 
   468, 469, 470, 546, 547, 548, 549, 550, 586, 587, 588, 589, 590, 666, 667, 668, 669, 670, 
   706, 707, 708, 709, 710, 786, 787, 788, 789, 790, 826, 827, 828, 829, 830, 906, 907, 908, 
   909, 910, 911, 945, 946, 947, 948, 949, 950, 1013, 1014, 1015, 1016, 1017, 1044, 1045, 
   1046, 1047, 1048, 1109, 1110, 1111, 1112, 1113, 1140, 1141, 1142, 1143, 1144, 1205, 1206, 
   1207, 1208, 1209, 1236, 1237, 1238, 1239, 1240, 1301, 1302, 1303, 1304, 1305, 1306, 1331, 
   1332, 1333, 1334, 1335, 1336, 1397, 1398, 1399, 1400, 1401, 1402, 1427, 1428, 1429, 1430, 
   1431, 1432, 1493, 1494, 1495, 1496, 1497, 1498, 1499, 1522, 1523, 1524, 1525, 1526, 1527, 
   1590, 1591, 1592, 1593, 1594, 1595, 1596, 1616, 1617, 1618, 1619, 1620, 1621, 1622, 1623, 
   1686, 1687, 1688, 1689, 1690, 1691, 1692, 1693, 1694, 1695, 1710, 1711, 1712, 1713, 1714, 
   1715, 1716, 1717, 1718, 1719, 1769, 1770, 1771, 1772, 1773, 1774, 1775, 1776, 1777, 1778, 
   1779, 1780, 1781, 1782, 1783, 1784, 1785, 1786, 1787, 1788, 1789, 1790, 1791, 1792, 1793, 
   1841, 1842, 1843, 1844, 1845, 1846, 1847, 1848, 1849, 1850, 1851, 1852, 1853, 1854, 1855, 
   1856, 1857, 1858, 1859, 1860, 1861, 1862, 1863, 1864, 1865, 1913, 1914, 1915, 1916, 1917, 
   1918, 1919, 1920, 1921, 1922, 1923, 1924, 1925, 1926, 1927, 1928, 1929, 1930, 1931, 1932, 
   1933, 1934, 1935, 1936, 1986, 1987, 1988, 1989, 1990, 1991, 1992, 1993, 1994, 1995, 1996, 
   1997, 1998, 1999, 2000, 2001, 2002, 2003, 2004, 2005, 2006, 2007, 2047, 2048, 2049, 2050, 
   2051, 2052, 2053, 2054, 2055, 2056],
  [61, 62, 63, 64, 65, 111, 112, 113, 114, 115, 181, 182, 183, 184, 185, 231, 232, 233, 234, 
   235, 301, 302, 303, 304, 305, 351, 352, 353, 354, 355, 421, 422, 423, 424, 425, 471, 472, 
   473, 474, 475, 541, 542, 543, 544, 545, 591, 592, 593, 594, 595, 661, 662, 663, 664, 665, 
   711, 712, 713, 714, 715, 781, 782, 783, 784, 785, 831, 832, 833, 834, 835, 901, 902, 903, 
   904, 905, 951, 952, 953, 954, 955, 1009, 1010, 1011, 1012, 1049, 1050, 1051, 1052, 1105, 
   1106, 1107, 1108, 1145, 1146, 1147, 1148, 1201, 1202, 1203, 1204, 1241, 1242, 1243, 1244, 
   1297, 1298, 1299, 1300, 1337, 1338, 1339, 1340, 1393, 1394, 1395, 1396, 1433, 1434, 1435, 
   1436, 1489, 1490, 1491, 1492, 1528, 1529, 1530, 1531, 1532, 1585, 1586, 1587, 1588, 1589, 
   1624, 1625, 1626, 1627, 1628, 1681, 1682, 1683, 1684, 1685, 1720, 1721, 1722, 1723, 1724, 
   1765, 1766, 1767, 1768, 1794, 1795, 1796, 1797, 1837, 1838, 1839, 1840, 1866, 1867, 1868, 
   1869, 1909, 1910, 1911, 1912, 1937, 1938, 1939, 1940, 1941, 1981, 1982, 1983, 1984, 1985, 
   2008, 2009, 2010, 2011, 2012, 2013, 2041, 2042, 2043, 2044, 2045, 2046, 2057, 2058, 2059, 
   2060, 2061, 2062, 2089, 2090, 2091, 2092, 2093, 2094, 2095, 2096, 2097, 2098, 2099, 2100, 
   2101, 2102, 2103, 2104, 2105, 2106, 2107, 2108, 2109, 2110, 2137, 2138, 2139, 2140, 2141, 
   2142, 2143, 2144, 2145, 2146, 2147, 2148, 2149, 2150, 2151, 2152, 2153, 2154, 2155, 2156, 
   2157, 2158, 2185, 2186, 2187, 2188, 2189, 2190, 2191, 2192, 2193, 2194, 2195, 2196, 2197, 
   2198, 2199, 2200, 2201, 2202, 2203, 2204, 2205, 2206, 2221, 2222, 2223, 2224, 2225, 2226, 
   2227, 2228, 2229, 2230, 2246, 2247, 2248, 2249, 2250, 2251, 2252, 2253, 2254],
  [0, 56, 57, 58, 59, 60, 116, 117, 118, 119, 120, 176, 177, 178, 179, 180, 236, 237, 238, 
   239, 240, 296, 297, 298, 299, 300, 356, 357, 358, 359, 360, 416, 417, 418, 419, 420, 476, 
   477, 478, 479, 480, 536, 537, 538, 539, 540, 596, 597, 598, 599, 600, 656, 657, 658, 659, 
   660, 716, 717, 718, 719, 720, 776, 777, 778, 779, 780, 836, 837, 838, 839, 840, 896, 897, 
   898, 899, 900, 956, 957, 958, 959, 960, 1005, 1006, 1007, 1008, 1053, 1054, 1055, 1056, 
   1101, 1102, 1103, 1104, 1149, 1150, 1151, 1152, 1197, 1198, 1199, 1200, 1245, 1246, 1247, 
   1248, 1293, 1294, 1295, 1296, 1341, 1342, 1343, 1344, 1389, 1390, 1391, 1392, 1437, 1438, 
   1439, 1440, 1485, 1486, 1487, 1488, 1533, 1534, 1535, 1536, 1581, 1582, 1583, 1584, 1629, 
   1630, 1631, 1632, 1677, 1678, 1679, 1680, 1725, 1726, 1727, 1728, 1762, 1763, 1764, 1798, 
   1799, 1800, 1834, 1835, 1836, 1870, 1871, 1872, 1906, 1907, 1908, 1942, 1943, 1944, 1978, 
   1979, 1980, 2014, 2015, 2016, 2039, 2040, 2063, 2064, 2087, 2088, 2111, 2112, 2135, 2136, 
   2159, 2160, 2183, 2184, 2207, 2208, 2219, 2220, 2231, 2232, 2233, 2243, 2244, 2245, 2255, 
   2256, 2257, 2258, 2259, 2260, 2261, 2262, 2263, 2264, 2265, 2266, 2267, 2268, 2269, 2270, 
   2271, 2272, 2273, 2274, 2275, 2276, 2277, 2278, 2279, 2280, 2281, 2282, 2283, 2284, 2285, 
   2286, 2287, 2288, 2289, 2290, 2291, 2292, 2293, 2294, 2295, 2296, 2297, 2298, 2299, 2300, 
   2301, 2302, 2303, 2304],
  [1, 2, 3, 4, 5, 51, 52, 53, 54, 55, 121, 122, 123, 124, 125, 171, 172, 173, 174, 175, 241, 
   242, 243, 244, 245, 291, 292, 293, 294, 295, 361, 362, 363, 364, 365, 411, 412, 413, 414, 
   415, 481, 482, 483, 484, 485, 531, 532, 533, 534, 535, 601, 602, 603, 604, 605, 651, 652, 
   653, 654, 655, 721, 722, 723, 724, 725, 771, 772, 773, 774, 775, 841, 842, 843, 844, 845, 
   891, 892, 893, 894, 895, 961, 962, 963, 964, 1001, 1002, 1003, 1004, 1057, 1058, 1059, 
   1060, 1097, 1098, 1099, 1100, 1153, 1154, 1155, 1156, 1193, 1194, 1195, 1196, 1249, 1250, 
   1251, 1252, 1289, 1290, 1291, 1292, 1345, 1346, 1347, 1348, 1385, 1386, 1387, 1388, 1441, 
   1442, 1443, 1444, 1480, 1481, 1482, 1483, 1484, 1537, 1538, 1539, 1540, 1541, 1576, 1577, 
   1578, 1579, 1580, 1633, 1634, 1635, 1636, 1637, 1672, 1673, 1674, 1675, 1676, 1729, 1730, 
   1731, 1732, 1758, 1759, 1760, 1761, 1801, 1802, 1803, 1804, 1830, 1831, 1832, 1833, 1873, 
   1874, 1875, 1876, 1901, 1902, 1903, 1904, 1905, 1945, 1946, 1947, 1948, 1949, 1972, 1973, 
   1974, 1975, 1976, 1977, 2017, 2018, 2019, 2020, 2021, 2022, 2033, 2034, 2035, 2036, 2037, 
   2038, 2065, 2066, 2067, 2068, 2069, 2070, 2071, 2072, 2073, 2074, 2075, 2076, 2077, 2078, 
   2079, 2080, 2081, 2082, 2083, 2084, 2085, 2086, 2113, 2114, 2115, 2116, 2117, 2118, 2119, 
   2120, 2121, 2122, 2123, 2124, 2125, 2126, 2127, 2128, 2129, 2130, 2131, 2132, 2133, 2134, 
   2161, 2162, 2163, 2164, 2165, 2166, 2167, 2168, 2169, 2170, 2171, 2172, 2173, 2174, 2175, 
   2176, 2177, 2178, 2179, 2180, 2181, 2182, 2209, 2210, 2211, 2212, 2213, 2214, 2215, 2216, 
   2217, 2218, 2234, 2235, 2236, 2237, 2238, 2239, 2240, 2241, 2242],
  [6, 7, 8, 9, 10, 46, 47, 48, 49, 50, 126, 127, 128, 129, 130, 166, 167, 168, 169, 170, 246, 
   247, 248, 249, 250, 286, 287, 288, 289, 290, 366, 367, 368, 369, 370, 406, 407, 408, 409, 
   410, 486, 487, 488, 489, 490, 526, 527, 528, 529, 530, 606, 607, 608, 609, 610, 646, 647, 
   648, 649, 650, 726, 727, 728, 729, 730, 766, 767, 768, 769, 770, 846, 847, 848, 849, 850, 
   851, 885, 886, 887, 888, 889, 890, 965, 966, 967, 968, 969, 996, 997, 998, 999, 1000, 1061, 
   1062, 1063, 1064, 1065, 1092, 1093, 1094, 1095, 1096, 1157, 1158, 1159, 1160, 1161, 1188, 
   1189, 1190, 1191, 1192, 1253, 1254, 1255, 1256, 1257, 1258, 1283, 1284, 1285, 1286, 1287, 
   1288, 1349, 1350, 1351, 1352, 1353, 1354, 1379, 1380, 1381, 1382, 1383, 1384, 1445, 1446, 
   1447, 1448, 1449, 1450, 1451, 1474, 1475, 1476, 1477, 1478, 1479, 1542, 1543, 1544, 1545, 
   1546, 1547, 1548, 1568, 1569, 1570, 1571, 1572, 1573, 1574, 1575, 1638, 1639, 1640, 1641, 
   1642, 1643, 1644, 1645, 1646, 1647, 1662, 1663, 1664, 1665, 1666, 1667, 1668, 1669, 1670, 
   1671, 1733, 1734, 1735, 1736, 1737, 1738, 1739, 1740, 1741, 1742, 1743, 1744, 1745, 1746, 
   1747, 1748, 1749, 1750, 1751, 1752, 1753, 1754, 1755, 1756, 1757, 1805, 1806, 1807, 1808, 
   1809, 1810, 1811, 1812, 1813, 1814, 1815, 1816, 1817, 1818, 1819, 1820, 1821, 1822, 1823, 
   1824, 1825, 1826, 1827, 1828, 1829, 1877, 1878, 1879, 1880, 1881, 1882, 1883, 1884, 1885, 
   1886, 1887, 1888, 1889, 1890, 1891, 1892, 1893, 1894, 1895, 1896, 1897, 1898, 1899, 1900, 
   1950, 1951, 1952, 1953, 1954, 1955, 1956, 1957, 1958, 1959, 1960, 1961, 1962, 1963, 1964, 
   1965, 1966, 1967, 1968, 1969, 1970, 1971, 2023, 2024, 2025, 2026, 2027, 2028, 2029, 2030, 
   2031, 2032],
  [11, 12, 13, 14, 15, 41, 42, 43, 44, 45, 131, 132, 133, 134, 135, 161, 162, 163, 164, 165, 
   251, 252, 253, 254, 255, 281, 282, 283, 284, 285, 371, 372, 373, 374, 375, 401, 402, 403, 
   404, 405, 491, 492, 493, 494, 495, 496, 520, 521, 522, 523, 524, 525, 611, 612, 613, 614, 
   615, 616, 640, 641, 642, 643, 644, 645, 731, 732, 733, 734, 735, 736, 760, 761, 762, 763, 
   764, 765, 852, 853, 854, 855, 856, 857, 879, 880, 881, 882, 883, 884, 970, 971, 972, 973, 
   974, 991, 992, 993, 994, 995, 1066, 1067, 1068, 1069, 1070, 1071, 1085, 1086, 1087, 1088, 
   1089, 1090, 1091, 1162, 1163, 1164, 1165, 1166, 1167, 1168, 1169, 1180, 1181, 1182, 1183, 
   1184, 1185, 1186, 1187, 1259, 1260, 1261, 1262, 1263, 1264, 1265, 1266, 1267, 1268, 1269, 
   1270, 1271, 1272, 1273, 1274, 1275, 1276, 1277, 1278, 1279, 1280, 1281, 1282, 1355, 1356, 
   1357, 1358, 1359, 1360, 1361, 1362, 1363, 1364, 1365, 1366, 1367, 1368, 1369, 1370, 1371, 
   1372, 1373, 1374, 1375, 1376, 1377, 1378, 1452, 1453, 1454, 1455, 1456, 1457, 1458, 1459, 
   1460, 1461, 1462, 1463, 1464, 1465, 1466, 1467, 1468, 1469, 1470, 1471, 1472, 1473, 1549, 
   1550, 1551, 1552, 1553, 1554, 1555, 1556, 1557, 1558, 1559, 1560, 1561, 1562, 1563, 1564, 
   1565, 1566, 1567, 1648, 1649, 1650, 1651, 1652, 1653, 1654, 1655, 1656, 1657, 1658, 1659, 
   1660, 1661],
  [16, 17, 18, 19, 20, 36, 37, 38, 39, 40, 136, 137, 138, 139, 140, 156, 157, 158, 159, 160, 
   256, 257, 258, 259, 260, 261, 275, 276, 277, 278, 279, 280, 376, 377, 378, 379, 380, 381, 
   395, 396, 397, 398, 399, 400, 497, 498, 499, 500, 501, 502, 514, 515, 516, 517, 518, 519, 
   617, 618, 619, 620, 621, 622, 623, 633, 634, 635, 636, 637, 638, 639, 737, 738, 739, 740, 
   741, 742, 743, 744, 745, 746, 750, 751, 752, 753, 754, 755, 756, 757, 758, 759, 858, 859, 
   860, 861, 862, 863, 864, 865, 866, 867, 868, 869, 870, 871, 872, 873, 874, 875, 876, 877, 
   878, 975, 976, 977, 978, 979, 980, 981, 982, 983, 984, 985, 986, 987, 988, 989, 990, 1072, 
   1073, 1074, 1075, 1076, 1077, 1078, 1079, 1080, 1081, 1082, 1083, 1084, 1170, 1171, 1172, 
   1173, 1174, 1175, 1176, 1177, 1178, 1179],
  [21, 22, 23, 24, 25, 31, 32, 33, 34, 35, 141, 142, 143, 144, 145, 146, 150, 151, 152, 153, 
   154, 155, 262, 263, 264, 265, 266, 267, 268, 269, 270, 271, 272, 273, 274, 382, 383, 384, 
   385, 386, 387, 388, 389, 390, 391, 392, 393, 394, 503, 504, 505, 506, 507, 508, 509, 510, 
   511, 512, 513, 624, 625, 626, 627, 628, 629, 630, 631, 632, 747, 748, 749],
  [26, 27, 28, 29, 30, 147, 148, 149]]

/-- Embedding of `ReinhartProfSymmetry.clusters`: the fixed table is
returned for any requested `numCoeff`. -/
def profClusters (_numCoeff : ℕ) : List (List ℕ) := profClusterList

lemma prof_partition : isPartition profClusterList 2305 :=
  isPartition_of_check _ _ (by decide) (by decide)

/-! ### Reinhart basis structure (`ReinhartSymmetry.patches`)

`patches(numCoeff)` recovers `MF = round(sqrt((numCoeff-1)/144))`, raises
`ValueError` when `MF**2*144 + 1 != numCoeff`, then derives the row count
`r_row = int(90/alpha)` with `alpha = 90/(MF*7+.5)`, the per-row azimuth
division counts `rnaz` and their cumulative sums `racc` (with a final
`+1` cell for the zenith cap).  When `r_row = 0` (which happens exactly at
`numCoeff = 1`, i.e. MF = 0) the assignment `racc[0] = rnaz[0]` raises an
`IndexError` on the empty `rnaz`; this failure mode is modelled by
`SymmError.indexError`.  For `numCoeff = 0` the float code takes
`sqrt` of a negative, yielding NaN and thus the same `ValueError` branch;
the exact model agrees on the outcome. -/

/-- Template of azimuth division counts per row band (`tnaz`). -/
def tnaz : List ℕ := [30, 30, 24, 24, 18, 12, 6]

/-- Round-half-to-even of `sqrt((c-1)/144)`, computed exactly: with
`s = ⌊sqrt((c-1)/144)⌋`, the rounded value is `s` when
`sqrt((c-1)/144) < s + 1/2` (equivalently `c-1 < 36*(2s+1)^2`), `s+1`
when it is larger, and the even neighbour at a tie, matching
`numpy.round` applied to `sqrt((numCoeff - 1)/144)`. -/
def mfOf (c : ℕ) : ℕ :=
  let s := Nat.sqrt ((c - 1) / 144)
  if c - 1 < 36 * (2 * s + 1) ^ 2 then s
  else if 36 * (2 * s + 1) ^ 2 < c - 1 then s + 1
  else if s % 2 = 0 then s else s + 1

/-- Row count `int(90/alpha)` with `alpha = 90./(MF*7+.5)`, in exact
rational arithmetic. -/
def rRowOf (MF : ℕ) : ℕ :=
  (⌊(90 : ℚ) / ((90 : ℚ) / (MF * 7 + 0.5))⌋).toNat

/-- Azimuth division count of row `r`:
`rnaz[r] = MF*tnaz[int(floor((r+.5)/MF))]`; the float floor equals the
integer quotient `(2r+1)/(2MF)`. -/
def rnazOf (MF r : ℕ) : ℕ := MF * tnaz.getD ((2 * r + 1) / (2 * MF)) 0

/-- Embedding of `ReinhartSymmetry.patches`. -/
def patches (numCoeff : ℕ) : Except SymmError (ℕ × List ℕ × List ℕ) :=
  let MF := mfOf numCoeff
  if MF ^ 2 * 144 + 1 ≠ numCoeff then .error .invalidBasisSize
  else
    let r_row := rRowOf MF
    let rnaz := (List.range r_row).map (rnazOf MF)
    if r_row = 0 then .error .indexError
    else
      let racc := (List.range r_row).map (fun r => (rnaz.take (r + 1)).sum)
        ++ [rnaz.sum + 1]
      .ok (r_row, rnaz, racc)

lemma rRowOf_eq (MF : ℕ) : rRowOf MF = 7 * MF := by
  have hx : ((MF : ℚ) * 7 + 0.5) ≠ 0 := by positivity
  have h90 : (90 : ℚ) ≠ 0 := by norm_num
  have hdiv : (90 : ℚ) / ((90 : ℚ) / (MF * 7 + 0.5)) = MF * 7 + 0.5 := by
    rw [div_div_eq_mul_div, mul_comm, mul_div_assoc, div_self h90, mul_one]
  have hfloor : ⌊(MF : ℚ) * 7 + 0.5⌋ = ((7 * MF : ℕ) : ℤ) := by
    rw [Int.floor_eq_iff]
    push_cast
    constructor
    · linarith
    · linarith
  rw [rRowOf, hdiv, hfloor, Int.toNat_natCast]

lemma mfOf_reinhart (MF : ℕ) : mfOf (MF ^ 2 * 144 + 1) = MF := by
  have h1 : MF ^ 2 * 144 + 1 - 1 = MF ^ 2 * 144 := rfl
  have h2 : MF ^ 2 * 144 / 144 = MF ^ 2 := by omega
  have h3 : Nat.sqrt (MF ^ 2) = MF := Nat.sqrt_eq' MF
  have h4 : MF ^ 2 * 144 < 36 * (2 * MF + 1) ^ 2 := by nlinarith
  simp only [mfOf, h1, h2, h3]
  rw [if_pos h4]

/-- C3 counterexample: the claim asserts `patches(numCoeff)` returns
normally iff `numCoeff = 144*MF^2 + 1` for some non-negative integer MF,
raising the invalid-basis-size `ValueError` otherwise.  At
`numCoeff = 1 = 144*0^2 + 1` (MF = 0) the size check passes but the code
crashes with an `IndexError` (`racc[0] = rnaz[0]` on an empty array), so
it neither returns normally nor raises the claimed error. -/
theorem patches_mf_zero_cex :
    patches 1 = .error .indexError ∧ (1 : ℕ) = 144 * 0 ^ 2 + 1 := by
  refine ⟨?_, rfl⟩
  have hm : mfOf 1 = 0 := by simpa using mfOf_reinhart 0
  simp only [patches, hm]
  rw [if_neg (by norm_num), if_pos (by rw [rRowOf_eq])]

/-- C3 amended: `patches(numCoeff)` returns normally iff
`numCoeff = 144*MF^2 + 1` for some positive integer MF; at
`numCoeff = 1` (the MF = 0 case admitted by the claim) it fails with an
index error rather than returning, and every `numCoeff` not of the form
`144*MF^2 + 1` fails with the invalid-basis-size `ValueError`, with
`MF` recovered as `round(sqrt((numCoeff-1)/144))`. -/
theorem patches_isOk_iff (c : ℕ) :
    (patches c).isOk = true ↔ ∃ MF : ℕ, 1 ≤ MF ∧ c = 144 * MF ^ 2 + 1 := by
  constructor
  · intro h
    simp only [patches] at h
    by_cases hchk : (mfOf c) ^ 2 * 144 + 1 ≠ c
    · rw [if_pos hchk] at h
      exact absurd h (by decide)
    · by_cases hrow : rRowOf (mfOf c) = 0
      · rw [if_neg hchk, if_pos hrow] at h
        exact absurd h (by decide)
      · refine ⟨mfOf c, ?_, by omega⟩
        rw [rRowOf_eq] at hrow
        omega
  · rintro ⟨MF, hMF, rfl⟩
    have hm : mfOf (144 * MF ^ 2 + 1) = MF := by
      have := mfOf_reinhart MF
      rwa [show MF ^ 2 * 144 = 144 * MF ^ 2 from by ring] at this
    have he : MF ^ 2 * 144 + 1 = 144 * MF ^ 2 + 1 := by ring
    simp only [patches, hm]
    rw [if_neg (not_ne_iff.mpr he), if_neg (by rw [rRowOf_eq]; omega)]
    rfl

/-- Witness for `patches_isOk_iff`: `patches` succeeds at 145 (MF = 1). -/
theorem patches_isOk_iff_witness : (patches 145).isOk = true :=
  (patches_isOk_iff 145).mpr ⟨1, le_rfl, by norm_num⟩

/-! ### Reinhart rotational symmetry (`ReinhartRotSymmetry.clusters`)

The shipped implementation returns one cluster per basis row: position
`r_row` holds `range(racc[0])` and position `r_row - i` holds
`range(racc[i-1], racc[i])` for `i = 1 .. r_row`. -/

/-- Build the per-row cluster array from a `patches` result, exactly as
`ReinhartRotSymmetry.clusters` does. -/
def rotClustersFrom (r_row : ℕ) (racc : List ℕ) : List (List ℕ) :=
  (List.range (r_row + 1)).map (fun j =>
    if j = r_row then List.range (racc.getD 0 0)
    else List.range' (racc.getD (r_row - j - 1) 0)
           (racc.getD (r_row - j) 0 - racc.getD (r_row - j - 1) 0))

/-- Embedding of `ReinhartRotSymmetry.clusters` (via `patches`). -/
def rotClusters (numCoeff : ℕ) : Except SymmError (List (List ℕ)) :=
  match patches numCoeff with
  | .error e => .error e
  | .ok (r_row, _, racc) => .ok (rotClustersFrom r_row racc)

lemma mapGetD (l : List α) (d : α) :
    (List.range l.length).map (fun i => l.getD i d) = l := by
  induction l with
  | nil => simp
  | cons a t ih =>
      rw [List.length_cons, List.range_succ_eq_map, List.map_cons, List.map_map]
      refine congrArg (a :: ·) ?_
      refine (List.map_congr_left fun i _ => ?_).trans ih
      simp [Function.comp]

lemma range_append_range' (a b : ℕ) (h : a ≤ b) :
    List.range a ++ List.range' a (b - a) = List.range b := by
  rw [List.range_eq_range' a, List.range_eq_range' b]
  have h1 := List.range'_append_1 0 a (b - a)
  rw [Nat.zero_add] at h1
  rw [h1]
  congr 1
  omega

lemma rotClustersFrom_reverse (r_row : ℕ) (racc : List ℕ) :
    (rotClustersFrom r_row racc).reverse
      = (List.range (r_row + 1)).map (fun j =>
          if j = 0 then List.range (racc.getD 0 0)
          else List.range' (racc.getD (j - 1) 0)
                 (racc.getD j 0 - racc.getD (j - 1) 0)) := by
  have hrev : (List.range (r_row + 1)).reverse
      = (List.range (r_row + 1)).map (fun i => r_row - i) := by
    rw [List.range_eq_range' (r_row + 1), List.reverse_range' 0 (r_row + 1),
      ← List.range_eq_range' (r_row + 1)]
    exact List.map_congr_left fun i _ => by omega
  rw [rotClustersFrom, ← List.map_reverse, hrev, List.map_map]
  apply List.map_congr_left
  intro j hj
  have hjle : j ≤ r_row := by
    have := List.mem_range.mp hj
    omega
  simp only [Function.comp]
  by_cases h0 : j = 0
  · subst h0
    simp
  · have hne : ¬ (r_row - j = r_row) := by omega
    rw [if_neg hne, if_neg h0]
    have h1 : r_row - (r_row - j) - 1 = j - 1 := by omega
    have h2 : r_row - (r_row - j) = j := by omega
    rw [h1, h2]

lemma flatten_ascending (racc : List ℕ) (R : ℕ)
    (hmono : ∀ i, i + 1 ≤ R → racc.getD i 0 ≤ racc.getD (i + 1) 0) :
    ((List.range (R + 1)).map (fun j =>
        if j = 0 then List.range (racc.getD 0 0)
        else List.range' (racc.getD (j - 1) 0)
               (racc.getD j 0 - racc.getD (j - 1) 0))).flatten
      = List.range (racc.getD R 0) := by
  induction R with
  | zero =>
      have h1 : List.range 1 = [0] := rfl
      rw [h1, List.map_cons, List.map_nil, List.flatten_cons, List.flatten_nil,
        List.append_nil, if_pos rfl]
  | succ R ih =>
      have hmono' : ∀ i, i + 1 ≤ R → racc.getD i 0 ≤ racc.getD (i + 1) 0 :=
        fun i hi => hmono i (by omega)
      rw [List.range_succ (n := R + 1), List.map_append, List.flatten_append,
        ih hmono']
      have hab : racc.getD R 0 ≤ racc.getD (R + 1) 0 := hmono R (by omega)
      simp only [List.map_cons, List.map_nil, List.flatten_cons,
        List.flatten_nil, List.append_nil]
      rw [if_neg (by omega : ¬ R + 1 = 0)]
      have h1 : R + 1 - 1 = R := by omega
      rw [h1, range_append_range' _ _ hab]

/-- Partition property of the row-per-cluster construction, for any
monotone cumulative-count list. -/
lemma rotClustersFrom_partition (r_row : ℕ) (racc : List ℕ)
    (hmono : ∀ i, i + 1 ≤ r_row → racc.getD i 0 ≤ racc.getD (i + 1) 0) :
    isPartition (rotClustersFrom r_row racc) (racc.getD r_row 0) := by
  intro n
  have hperm : (rotClustersFrom r_row racc).flatten.Perm
      (List.range (racc.getD r_row 0)) := by
    have h1 : (rotClustersFrom r_row racc).reverse.Perm
        (rotClustersFrom r_row racc) := List.reverse_perm _
    have h2 := (h1.symm.flatten).symm
    rw [rotClustersFrom_reverse, flatten_ascending racc r_row hmono] at h2
    exact h2.symm
  rw [hperm.count_eq, count_range]

lemma getD_map_range (f : ℕ → α) (m i : ℕ) (d : α) (h : i < m) :
    ((List.range m).map f).getD i d = f i := by
  rw [List.getD_eq_getElem?_getD, List.getElem?_map, List.getElem?_range h]
  rfl

lemma rnazOf_block (MF k j : ℕ) (hMF : 1 ≤ MF) (hj : j < MF) :
    rnazOf MF (k * MF + j) = MF * tnaz.getD k 0 := by
  rw [rnazOf]
  congr 2
  have h1 : 2 * (k * MF + j) + 1 = (2 * j + 1) + (2 * MF) * k := by ring
  rw [h1, Nat.add_mul_div_left _ _ (by omega : 0 < 2 * MF),
    Nat.div_eq_of_lt (by omega), Nat.zero_add]

/-- The per-row azimuth division list of `patches` at subdivision `MF`. -/
def rnazList (MF : ℕ) : List ℕ := (List.range (7 * MF)).map (rnazOf MF)

/-- The cumulative patch-count list of `patches` at subdivision `MF`. -/
def raccList (MF : ℕ) : List ℕ :=
  (List.range (7 * MF)).map (fun r => ((rnazList MF).take (r + 1)).sum)
    ++ [(rnazList MF).sum + 1]

lemma rnaz_partial_sum (MF : ℕ) (hMF : 1 ≤ MF) (k : ℕ) (hk : k ≤ 7) :
    ((List.range (k * MF)).map (rnazOf MF)).sum = MF ^ 2 * (tnaz.take k).sum := by
  induction k with
  | zero => simp
  | succ k ih =>
      have hk' : k ≤ 7 := by omega
      have hsplit : List.range ((k + 1) * MF)
          = List.range (k * MF) ++ (List.range MF).map (k * MF + ·) := by
        rw [show (k + 1) * MF = k * MF + MF from by ring, List.range_add]
      rw [hsplit, List.map_append, List.sum_append, ih hk', List.map_map]
      have hconst : ((List.range MF).map ((rnazOf MF) ∘ (k * MF + ·)))
          = List.replicate MF (MF * tnaz.getD k 0) := by
        rw [List.eq_replicate_iff]
        refine ⟨by simp, fun b hb => ?_⟩
        obtain ⟨j, hj, rfl⟩ := List.mem_map.mp hb
        have hjm := List.mem_range.mp hj
        exact rnazOf_block MF k j hMF hjm
      rw [hconst, List.sum_replicate, smul_eq_mul]
      have hklen : k < tnaz.length := by rw [tnaz]; simp; omega
      have htake := List.sum_take_succ tnaz k hklen
      rw [htake]
      have hgetD : tnaz[k] = tnaz.getD k 0 := by
        rw [List.getD_eq_getElem?_getD, List.getElem?_eq_getElem hklen]
        rfl
      rw [hgetD]
      ring

lemma rnazList_sum (MF : ℕ) (hMF : 1 ≤ MF) :
    (rnazList MF).sum = 144 * MF ^ 2 := by
  have h := rnaz_partial_sum MF hMF 7 le_rfl
  rw [rnazList, h]
  have : (tnaz.take 7).sum = 144 := by decide
  rw [this]
  ring

lemma raccList_getD_lt (MF i : ℕ) (h : i < 7 * MF) :
    (raccList MF).getD i 0 = ((rnazList MF).take (i + 1)).sum := by
  rw [raccList, List.getD_append _ _ _ _ (by simpa using h), getD_map_range _ _ _ _ h]

lemma raccList_getD_last (MF : ℕ) :
    (raccList MF).getD (7 * MF) 0 = (rnazList MF).sum + 1 := by
  rw [raccList, List.getD_eq_getElem?_getD, List.getElem?_append_right (by simp)]
  simp

lemma raccList_mono (MF : ℕ) :
    ∀ i, i + 1 ≤ 7 * MF →
      (raccList MF).getD i 0 ≤ (raccList MF).getD (i + 1) 0 := by
  intro i hi
  by_cases hlast : i + 1 = 7 * MF
  · rw [raccList_getD_lt MF i (by omega), hlast, raccList_getD_last]
    have hfull : (rnazList MF).take (7 * MF) = rnazList MF :=
      List.take_of_length_le (by rw [rnazList]; simp)
    rw [hfull]
    omega
  · have hi1 : i + 1 < 7 * MF := by omega
    rw [raccList_getD_lt MF i (by omega), raccList_getD_lt MF (i + 1) hi1]
    have hlen : i + 1 < (rnazList MF).length := by rw [rnazList]; simpa using hi1
    rw [List.sum_take_succ _ _ hlen]
    omega

lemma patches_reinhart (MF : ℕ) (hMF : 1 ≤ MF) :
    patches (144 * MF ^ 2 + 1) = .ok (7 * MF, rnazList MF, raccList MF) := by
  have hm : mfOf (144 * MF ^ 2 + 1) = MF := by
    have := mfOf_reinhart MF
    rwa [show MF ^ 2 * 144 = 144 * MF ^ 2 from by ring] at this
  have he : MF ^ 2 * 144 + 1 = 144 * MF ^ 2 + 1 := by ring
  simp only [patches, hm, rRowOf_eq]
  rw [if_neg (not_ne_iff.mpr he), if_neg (by omega : ¬ 7 * MF = 0)]
  rfl

lemma rot_reinhart (MF : ℕ) (hMF : 1 ≤ MF) :
    rotClusters (144 * MF ^ 2 + 1)
      = .ok (rotClustersFrom (7 * MF) (raccList MF)) := by
  rw [rotClusters, patches_reinhart MF hMF]

/-- The rotational clusters at any valid Reinhart size form a partition. -/
lemma rot_reinhart_partition (MF : ℕ) (hMF : 1 ≤ MF) :
    isPartition (rotClustersFrom (7 * MF) (raccList MF)) (144 * MF ^ 2 + 1) := by
  have h := rotClustersFrom_partition (7 * MF) (raccList MF) (raccList_mono MF)
  rwa [raccList_getD_last, rnazList_sum MF hMF] at h

/-! ### Reinhart g-value-curve symmetry (`ReinhartCurveSymmetry.clusters`)

The source rebuilds the per-row `clust` array exactly as the rotational
variant does, then regroups the fixed positions `clust[0] .. clust[28]`
into 15 super-clusters.  The grouping table is written for the 29 rows of
MF = 4 (`numCoeff = 2305`): for MF < 4 the accesses beyond `r_row` raise
an `IndexError` (modelled by `SymmError.indexError`); rows beyond index
28, present for MF > 4, are silently dropped. -/

/-- The fixed regrouping of row clusters used by `ReinhartCurveSymmetry`:
`CLUST0..CLUST9` are single rows, `CLUST10` is row 4, `CLUST20` rows 5-7,
`CLUST30` rows 8-10, `CLUST40` rows 11-13, `CLUST44..CLUST56` single rows
14-18, `CLUST60` rows 19-20 and `CLUST70` rows 21-28. -/
def curveGroup (clust : ℕ → List ℕ) : List (List ℕ) :=
  [clust 0, clust 1, clust 2, clust 3, clust 4,
   clust 5 ++ clust 6 ++ clust 7,
   clust 8 ++ clust 9 ++ clust 10,
   clust 11 ++ clust 12 ++ clust 13,
   clust 14, clust 15, clust 16, clust 17, clust 18,
   clust 19 ++ clust 20,
   clust 21 ++ clust 22 ++ clust 23 ++ clust 24 ++ clust 25 ++ clust 26
     ++ clust 27 ++ clust 28]

/-- Embedding of `ReinhartCurveSymmetry.clusters`. -/
def curveClusters (numCoeff : ℕ) : Except SymmError (List (List ℕ)) :=
  match patches numCoeff with
  | .error e => .error e
  | .ok (r_row, _, racc) =>
      if r_row < 28 then .error .indexError
      else .ok (curveGroup (fun j => (rotClustersFrom r_row racc).getD j []))

lemma curveGroup_flatten (cls : List (List ℕ)) (h : cls.length = 29) :
    (curveGroup (fun j => cls.getD j [])).flatten = cls.flatten := by
  have h1 : (List.range 29).map (fun j => cls.getD j []) = cls := by
    rw [← h]
    exact mapGetD cls []
  conv_rhs => rw [← h1]
  have h2 : List.range 29
      = [0, 1, 2, 3, 4, 5, 6, 7, 8, 9, 10, 11, 12, 13, 14, 15, 16, 17, 18,
         19, 20, 21, 22, 23, 24, 25, 26, 27, 28] := rfl
  rw [h2]
  simp [curveGroup, List.append_assoc]

lemma rotClustersFrom_length (r_row : ℕ) (racc : List ℕ) :
    (rotClustersFrom r_row racc).length = r_row + 1 := by
  rw [rotClustersFrom, List.length_map, List.length_range]

/-- The curve clusters at the supported size 2305 form a partition. -/
lemma curve_partition_2305 :
    ∃ cls, curveClusters 2305 = .ok cls ∧ isPartition cls 2305 := by
  have hp : patches 2305 = .ok (28, rnazList 4, raccList 4) := by
    have h := patches_reinhart 4 (by norm_num)
    norm_num at h
    exact h
  refine ⟨curveGroup (fun j => (rotClustersFrom 28 (raccList 4)).getD j []),
    ?_, ?_⟩
  · rw [curveClusters, hp]
    rfl
  · have hrot := rot_reinhart_partition 4 (by norm_num)
    norm_num at hrot
    intro n
    rw [curveGroup_flatten _ (rotClustersFrom_length 28 (raccList 4))]
    exact hrot n

/-! ### Full-resolution symmetry (`FullResSymmetry.clusters`)

The source recovers the fisheye radius as `int(sqrt(numCoeff/pi) + 1)`,
maps every bin index through `idx2Pix` and `vwRay`, takes the polar angle
`theta = arccos(Dz)` of the recovered view ray, and buckets the angles
with `digitize(coeffThetas, radians(arange(80))) - 1`, collecting the bin
indices of each of the 80 buckets via `flatnonzero(thetaBins == i)`,
empty buckets included.  The per-bin polar angle comes out of
floating-point Newton-Raphson inversion and `arccos`; the clustering
layer is embedded here over exact rationals, parameterised by an
arbitrary polar-angle assignment `theta` (in degrees: the boundaries
`radians(arange(80))` are the images of `0°,…,79°` under the monotone
degree-to-radian map, so bucketing in degrees is equivalent).  Every
structural property proved below holds for any non-negative `theta`,
which is all `arccos` can produce. -/

/-- Embedding of `numpy.digitize` for an increasing boundary list with
`right=False`: the number of boundaries that are `≤ x`. -/
def digitize (bins : List ℚ) (x : ℚ) : ℕ :=
  (bins.filter (fun b => decide (b ≤ x))).length

/-- The cluster boundaries `CLUSTTHETAS = radians(arange(80))`, in
degrees. -/
def clustThetas : List ℚ := (List.range 80).map (fun (k : ℕ) => (k : ℚ))

/-- The bucket `digitize(...) - 1` of a polar angle (an integer in the
source; an angle below the first boundary would give `-1`). -/
def thetaBin (theta : ℚ) : ℤ := (digitize clustThetas theta : ℤ) - 1

/-- Embedding of `FullResSymmetry.clusters`, parameterised by the per-bin
polar-angle assignment in degrees. -/
def fullResClusters (theta : ℕ → ℚ) (numCoeff : ℕ) : List (List ℕ) :=
  (List.range 80).map (fun (i : ℕ) =>
    (List.range numCoeff).filter
      (fun idx => decide (thetaBin (theta idx) = (i : ℤ))))

lemma countP_range_le (N m : ℕ) :
    ((List.range N).filter (fun k => decide (k ≤ m))).length = min (m + 1) N := by
  induction N with
  | zero => simp
  | succ N ih =>
      rw [List.range_succ, List.filter_append, List.length_append, ih]
      by_cases h : N ≤ m
      · simp only [List.filter_cons, decide_eq_true h, if_pos]
        simp
        omega
      · simp only [List.filter_cons, decide_eq_false h]
        simp
        omega

lemma digitize_deg (x : ℚ) (hx : 0 ≤ x) :
    digitize clustThetas x = min (⌊x⌋.toNat + 1) 80 := by
  have hfl : 0 ≤ ⌊x⌋ := Int.floor_nonneg.mpr hx
  rw [digitize, clustThetas, List.filter_map, List.length_map]
  have hcongr : ∀ k ∈ List.range 80,
      ((fun b => decide (b ≤ x)) ∘ fun (k : ℕ) => (k : ℚ)) k
        = decide (k ≤ ⌊x⌋.toNat) := by
    intro k _
    simp only [Function.comp]
    apply decide_eq_decide.mpr
    rw [show ((k : ℕ) : ℚ) = ((k : ℤ) : ℚ) from by push_cast; rfl, ← Int.le_floor]
    omega
  rw [List.filter_congr hcongr, countP_range_le]

lemma thetaBin_eq (x : ℚ) (hx : 0 ≤ x) :
    thetaBin x = ((min ⌊x⌋.toNat 79 : ℕ) : ℤ) := by
  rw [thetaBin, digitize_deg x hx]
  omega

lemma count_nodup (l : List ℕ) (hl : l.Nodup) (a : ℕ) :
    l.count a = if a ∈ l then 1 else 0 := by
  by_cases h : a ∈ l
  · rw [if_pos h]
    exact List.nodup_iff_count_eq_one.mp hl a h
  · rw [if_neg h]
    exact List.count_eq_zero.mpr h

lemma sum_map_indicator (N b : ℕ) (hb : b < N) :
    ((List.range N).map (fun i => if b = i then (1 : ℕ) else 0)).sum = 1 := by
  induction N with
  | zero => omega
  | succ N ih =>
      rw [List.range_succ, List.map_append, List.sum_append]
      by_cases h : b = N
      · subst h
        have hz : ((List.range b).map
            (fun i => if b = i then (1 : ℕ) else 0)).sum = 0 := by
          apply List.sum_eq_zero
          intro x hx
          obtain ⟨i, hi, rfl⟩ := List.mem_map.mp hx
          have := List.mem_range.mp hi
          rw [if_neg (by omega)]
        simp [hz]
      · have hbN : b < N := by omega
        simp [ih hbN, h]

/-- C2, full-resolution component: for every non-negative polar-angle
assignment, the 80-bucket clustering partitions the bin range. -/
lemma fullRes_partition (theta : ℕ → ℚ) (htheta : ∀ i, 0 ≤ theta i)
    (n : ℕ) : isPartition (fullResClusters theta n) n := by
  intro idx
  rw [fullResClusters, List.count_flatten, List.map_map]
  have hcongr : ∀ i ∈ List.range 80,
      (List.count idx ∘ fun (i : ℕ) =>
          (List.range n).filter
            (fun k => decide (thetaBin (theta k) = (i : ℤ)))) i
        = if idx < n ∧ min ⌊theta idx⌋.toNat 79 = i then 1 else 0 := by
    intro i _
    simp only [Function.comp]
    rw [count_nodup _ ((List.nodup_range n).filter _)]
    by_cases h1 : idx < n
    · by_cases h2 : min ⌊theta idx⌋.toNat 79 = i
      · rw [if_pos, if_pos ⟨h1, h2⟩]
        refine List.mem_filter.mpr ⟨List.mem_range.mpr h1, ?_⟩
        rw [thetaBin_eq _ (htheta idx), h2]
        simp
      · rw [if_neg, if_neg (by tauto)]
        intro hmem
        obtain ⟨hm1, hm2⟩ := List.mem_filter.mp hmem
        apply h2
        have hv := of_decide_eq_true hm2
        rw [thetaBin_eq _ (htheta idx)] at hv
        exact_mod_cast hv
    · rw [if_neg, if_neg (by tauto)]
      intro hmem
      exact h1 (List.mem_range.mp (List.mem_filter.mp hmem).1)
  rw [List.map_congr_left hcongr]
  clear hcongr
  have hblt : min ⌊theta idx⌋.toNat 79 < 80 :=
    lt_of_le_of_lt (min_le_right _ _) (by norm_num)
  revert hblt
  generalize min ⌊theta idx⌋.toNat 79 = b
  intro hblt
  by_cases h1 : idx < n
  · rw [if_pos h1]
    simp only [h1, true_and]
    exact sum_map_indicator 80 b hblt
  · rw [if_neg h1]
    simp only [h1, false_and, if_false]
    simp

/-! ### Coefficient clustering (`SymmetryBase.clusterCoeffs`)

The shared operation loads a coefficient vector, fails on an empty vector
(`ValueError`), resolves the clusters for its length under the active
policy, verifies for every bin index that exactly one cluster claims it
(`ValueError` "bin not found" / "assigned to multiple clusters", raised at
the first offending bin), accumulates each bin's coefficient into its
owning cluster's running sum, and finally returns
`clustCoeffs / clustCoeffs.sum()` — the division is performed
unconditionally.  Coefficients are exact rationals here (floats in the
source); the already-resolved cluster list is passed in directly, the
file-loading and one-slot cache being out of scope. -/

/-- Number of clusters claiming bin `i` (the length of the `clustIdx`
list built in the source). -/
def numOwners (clustList : List (List ℕ)) (i : ℕ) : ℕ :=
  (clustList.filter (fun c => c.contains i)).length

/-- Embedding of `SymmetryBase.clusterCoeffs`, for a resolved cluster
list.  The per-bin ownership check is hoisted before the accumulation
loop (the source raises at the first offending bin inside the loop; the
observable outcome is identical). -/
def clusterCoeffs (clustList : List (List ℕ)) (coeffs : List ℚ) :
    Except SymmError (List ℚ) :=
  if coeffs.length = 0 then .error .emptyInput
  else
    match (List.range coeffs.length).find?
        (fun i => decide (numOwners clustList i ≠ 1)) with
    | some i =>
        if numOwners clustList i = 0 then .error .binNotFound
        else .error .binOverlap
    | none =>
        let acc := (List.range coeffs.length).foldl
          (fun (acc : List ℚ) i =>
            acc.set (clustList.findIdx (fun c => c.contains i))
              (acc.getD (clustList.findIdx (fun c => c.contains i)) 0
                + coeffs.getD i 0))
          (List.replicate clustList.length 0)
        .ok (acc.map (fun x => x / acc.sum))

lemma countP_ne_zero_of_sum_one :
    ∀ l : List ℕ, l.sum = 1 → (l.filter (fun x => decide (x ≠ 0))).length = 1 := by
  intro l
  induction l with
  | nil => simp
  | cons a t ih =>
      intro hsum
      rw [List.sum_cons] at hsum
      by_cases ha : a = 0
      · subst ha
        rw [List.filter_cons, decide_eq_false (by omega)]
        simpa using ih (by omega)
      · have ha1 : a = 1 := by omega
        have ht : t.sum = 0 := by omega
        have htz : (t.filter (fun x => decide (x ≠ 0))).length = 0 := by
          rw [List.length_eq_zero, List.filter_eq_nil_iff]
          intro x hx
          have : x = 0 := by
            have := List.sum_eq_zero_iff.mp ht
            simpa using this x hx
          simp [this]
        rw [List.filter_cons, decide_eq_true ha]
        simpa using htz

lemma numOwners_eq_of_partition (cls : List (List ℕ)) (N i : ℕ)
    (hp : isPartition cls N) (hi : i < N) : numOwners cls i = 1 := by
  have hsum : (cls.map (List.count i)).sum = 1 := by
    have h := hp i
    rwa [List.count_flatten, if_pos hi] at h
  rw [numOwners]
  have hstep : cls.filter (fun c => c.contains i)
      = cls.filter (fun c => decide (List.count i c ≠ 0)) := by
    apply List.filter_congr
    intro c _
    have hc : c.contains i = decide (i ∈ c) := List.elem_eq_mem i c
    rw [hc]
    apply decide_eq_decide.mpr
    rw [Ne, List.count_eq_zero]
    tauto
  rw [hstep]
  have hmap : (cls.filter (fun c => decide (List.count i c ≠ 0))).length
      = ((cls.map (List.count i)).filter (fun x => decide (x ≠ 0))).length := by
    rw [← List.countP_eq_length_filter, ← List.countP_eq_length_filter,
      List.countP_map]
    rfl
  rw [hmap]
  exact countP_ne_zero_of_sum_one _ hsum

lemma sum_set_add (l : List ℚ) (j : ℕ) (x : ℚ) (hj : j < l.length) :
    (l.set j (l.getD j 0 + x)).sum = l.sum + x := by
  induction l generalizing j with
  | nil => simp at hj
  | cons a t ih =>
      cases j with
      | zero =>
          simp only [List.set_cons_zero, List.getD_cons_zero, List.sum_cons]
          ring
      | succ j =>
          have hj' : j < t.length := by simpa using hj
          simp only [List.set_cons_succ, List.getD_cons_succ, List.sum_cons,
            ih j hj']
          ring

lemma foldl_accumulate_sum (cls : List (List ℕ)) (coeffs : List ℚ) :
    ∀ (is : List ℕ) (acc : List ℚ) (hlen : acc.length = cls.length)
      (hown : ∀ i ∈ is, cls.findIdx (fun c => c.contains i) < cls.length),
      ((is.foldl (fun (acc : List ℚ) i =>
          acc.set (cls.findIdx (fun c => c.contains i))
            (acc.getD (cls.findIdx (fun c => c.contains i)) 0
              + coeffs.getD i 0)) acc).sum
        = acc.sum + (is.map (fun i => coeffs.getD i 0)).sum)
      ∧ (is.foldl (fun (acc : List ℚ) i =>
          acc.set (cls.findIdx (fun c => c.contains i))
            (acc.getD (cls.findIdx (fun c => c.contains i)) 0
              + coeffs.getD i 0)) acc).length = cls.length := by
  intro is
  induction is with
  | nil => intro acc hlen _; simpa using hlen
  | cons i t ih =>
      intro acc hlen hown
      have hj : cls.findIdx (fun c => c.contains i) < acc.length := by
        rw [hlen]
        exact hown i (List.mem_cons_self i t)
      have hlen' : (acc.set (cls.findIdx (fun c => c.contains i))
          (acc.getD (cls.findIdx (fun c => c.contains i)) 0
            + coeffs.getD i 0)).length = cls.length := by
        rw [List.length_set, hlen]
      have hown' : ∀ j ∈ t, cls.findIdx (fun c => c.contains j) < cls.length :=
        fun j hjt => hown j (List.mem_cons_of_mem i hjt)
      obtain ⟨ihsum, ihlen⟩ := ih _ hlen' hown'
      refine ⟨?_, by simpa using ihlen⟩
      rw [List.foldl_cons, ihsum, sum_set_add _ _ _ hj, List.map_cons,
        List.sum_cons]
      ring

lemma sum_map_div (l : List ℚ) (s : ℚ) :
    (l.map (fun x => x / s)).sum = l.sum / s := by
  induction l with
  | nil => simp
  | cons a t ih =>
      simp only [List.map_cons, List.sum_cons, ih]
      ring

lemma find_owners_none (clustList : List (List ℕ)) (N : ℕ)
    (hpart : isPartition clustList N) :
    (List.range N).find? (fun i => decide (numOwners clustList i ≠ 1))
      = none := by
  rw [List.find?_eq_none]
  intro i hi
  simp [numOwners_eq_of_partition clustList N i hpart (List.mem_range.mp hi)]

lemma findIdx_owner_lt (clustList : List (List ℕ)) (N i : ℕ)
    (hpart : isPartition clustList N) (hi : i < N) :
    clustList.findIdx (fun c => c.contains i) < clustList.length := by
  apply List.findIdx_lt_length_of_exists
  have h1 := numOwners_eq_of_partition clustList N i hpart hi
  rw [numOwners] at h1
  have h2 : clustList.filter (fun c => c.contains i) ≠ [] := by
    intro hnil
    rw [hnil] at h1
    simp at h1
  obtain ⟨c, hc⟩ := List.exists_mem_of_ne_nil _ h2
  have hm := List.mem_filter.mp hc
  exact ⟨c, hm.1, hm.2⟩

/-- C5: for a coefficient vector that is valid for the active symmetry
policy (its clusters partition the bin range), elementwise non-negative
and not all zero, `clusterCoeffs` returns normally and its output sums to
exactly 1 in exact arithmetic (hence within the claimed `1e-9` floating
tolerance): each cluster entry is its members' total divided by the grand
total. -/
theorem cluster_coeffs_sum_one (clustList : List (List ℕ)) (coeffs : List ℚ)
    (hpart : isPartition clustList coeffs.length)
    (hnonneg : ∀ x ∈ coeffs, 0 ≤ x)
    (hnonzero : ∃ x ∈ coeffs, x ≠ 0) :
    ∃ out, clusterCoeffs clustList coeffs = .ok out ∧ out.sum = 1 := by
  obtain ⟨x0, hx0mem, hx0⟩ := hnonzero
  have hne : ¬ coeffs.length = 0 := by
    intro h
    rw [List.length_eq_zero] at h
    subst h
    simp at hx0mem
  have hfind := find_owners_none clustList coeffs.length hpart
  simp only [clusterCoeffs, if_neg hne, hfind]
  refine ⟨_, rfl, ?_⟩
  have hown : ∀ i ∈ List.range coeffs.length,
      clustList.findIdx (fun c => c.contains i) < clustList.length :=
    fun i hi =>
      findIdx_owner_lt clustList coeffs.length i hpart (List.mem_range.mp hi)
  obtain ⟨hsum, -⟩ := foldl_accumulate_sum clustList coeffs
    (List.range coeffs.length) (List.replicate clustList.length 0)
    (by simp) hown
  rw [sum_map_div, hsum, mapGetD coeffs 0, List.sum_replicate, smul_zero,
    zero_add]
  have hxpos : 0 < x0 := lt_of_le_of_ne (hnonneg x0 hx0mem) (Ne.symm hx0)
  have hpos : 0 < coeffs.sum :=
    lt_of_lt_of_le hxpos (List.single_le_sum hnonneg x0 hx0mem)
  exact div_self (ne_of_gt hpos)

/-- Witness for `cluster_coeffs_sum_one`: the Klems partition with an
all-ones 145-entry coefficient vector. -/
theorem cluster_coeffs_sum_one_witness :
    ∃ out, clusterCoeffs klemsClusterList (List.replicate 145 (1 : ℚ)) = .ok out
      ∧ out.sum = 1 := by
  refine cluster_coeffs_sum_one klemsClusterList (List.replicate 145 (1 : ℚ))
    ?_ ?_ ?_
  · rw [List.length_replicate]
    exact klems_partition
  · intro x hx
    rw [List.eq_of_mem_replicate hx]
    norm_num
  · exact ⟨1, List.mem_replicate.mpr ⟨by norm_num, rfl⟩, by norm_num⟩

lemma foldl_accumulate_zero (cls : List (List ℕ)) (coeffs : List ℚ)
    (hz : ∀ i, coeffs.getD i 0 = 0) :
    ∀ (is : List ℕ) (acc : List ℚ), acc = List.replicate cls.length 0 →
      is.foldl (fun (acc : List ℚ) i =>
          acc.set (cls.findIdx (fun c => c.contains i))
            (acc.getD (cls.findIdx (fun c => c.contains i)) 0
              + coeffs.getD i 0)) acc = List.replicate cls.length 0 := by
  intro is
  induction is with
  | nil =>
      intro acc h
      simpa using h
  | cons i t ih =>
      intro acc h
      rw [List.foldl_cons]
      apply ih
      subst h
      rw [hz i, add_zero]
      apply List.eq_replicate_iff.mpr
      refine ⟨by simp, fun b hb => ?_⟩
      rcases List.mem_or_eq_of_mem_set hb with hmem | heq
      · exact List.eq_of_mem_replicate hmem
      · rw [heq]
        rcases lt_or_ge (cls.findIdx (fun c => c.contains i)) cls.length
          with hlt | hge
        · rw [List.getD_eq_getElem?_getD, List.getElem?_replicate,
            if_pos hlt]
          rfl
        · rw [List.getD_eq_getElem?_getD, List.getElem?_eq_none
            (by simpa using hge)]
          rfl

lemma clusterCoeffs_all_zero (clustList : List (List ℕ))
    (coeffs : List ℚ) (hpart : isPartition clustList coeffs.length)
    (hne : coeffs ≠ []) (hzero : ∀ x ∈ coeffs, x = 0) :
    clusterCoeffs clustList coeffs
      = .ok (List.replicate clustList.length 0) := by
  have hne' : ¬ coeffs.length = 0 := fun h => hne (List.length_eq_zero.mp h)
  have hfind := find_owners_none clustList coeffs.length hpart
  simp only [clusterCoeffs, if_neg hne', hfind]
  have hz : ∀ i, coeffs.getD i 0 = 0 := by
    intro i
    rcases lt_or_ge i coeffs.length with h | h
    · rw [List.getD_eq_getElem?_getD, List.getElem?_eq_getElem h]
      exact hzero _ (List.getElem_mem h)
    · rw [List.getD_eq_getElem?_getD, List.getElem?_eq_none (by simpa using h)]
      rfl
  rw [foldl_accumulate_zero clustList coeffs hz _ _ rfl, List.map_replicate,
    zero_div]

/-- C6 counterexample: the claim asserts that a (near-)zero grand total
makes `clusterCoeffs` fail with a reportable error instead of performing
the final division.  On the all-zero 145-entry vector under the Klems
partition the code performs the division anyway and returns normally (in
exact arithmetic a zero vector; in the floating-point source, NaN entries
accompanied only by a numpy `RuntimeWarning`). -/
theorem cluster_coeffs_zero_cex :
    clusterCoeffs klemsClusterList (List.replicate 145 (0 : ℚ))
        = .ok (List.replicate 4 0)
      ∧ (clusterCoeffs klemsClusterList (List.replicate 145 (0 : ℚ))).isOk
        = true := by
  have h := clusterCoeffs_all_zero klemsClusterList (List.replicate 145 (0 : ℚ))
    (by rw [List.length_replicate]; exact klems_partition)
    (by simp)
    (fun x hx => List.eq_of_mem_replicate hx)
  rw [show klemsClusterList.length = 4 from rfl] at h
  exact ⟨h, by rw [h]; rfl⟩

/-- C6 amended: when every coefficient is zero (so the accumulated grand
total is zero), `clusterCoeffs` still performs the final division and
returns normally with an all-zero cluster vector (the exact-arithmetic
image of the NaN/∞ vector the floating-point division produces), rather
than failing with a reportable error. -/
theorem cluster_coeffs_zero_total (clustList : List (List ℕ))
    (coeffs : List ℚ) (hpart : isPartition clustList coeffs.length)
    (hne : coeffs ≠ []) (hzero : ∀ x ∈ coeffs, x = 0) :
    clusterCoeffs clustList coeffs
      = .ok (List.replicate clustList.length 0) :=
  clusterCoeffs_all_zero clustList coeffs hpart hne hzero

/-- Witness for `cluster_coeffs_zero_total`: a two-cluster toy partition
with the all-zero two-entry vector. -/
theorem cluster_coeffs_zero_total_witness :
    clusterCoeffs [[0], [1]] [(0 : ℚ), 0] = .ok [0, 0] := by
  have h := cluster_coeffs_zero_total [[0], [1]] [(0 : ℚ), 0]
    (isPartition_of_check _ _ (by decide) (by decide))
    (by decide)
    (fun x hx => by
      rcases List.mem_pair.mp hx with h | h <;> exact h)
  simpa using h

/-! ### Partition completeness across the five symmetry policies (C2)

The valid bin counts per policy follow the design in the spec: Klems is
fixed to `numCoeff = 145`; ReinhartRotational covers every
`numCoeff = 144*MF^2 + 1` with `MF ≥ 1`; ReinhartCurve's fixed 15-group
table and ReinhartProfile's fixed 13-list table are hand-authored for the
single resolution `numCoeff = 2305` (MF = 4); FullResolution is generative
for any `numCoeff`, its partition property holding for every non-negative
polar-angle assignment (which is all that `arccos` can produce). -/

/-- C2: for every symmetry policy and every bin count valid for it, the
returned cluster list partitions `{0, …, numCoeff−1}`: the clusters are
pairwise disjoint and their union covers each bin index exactly once. -/
theorem clusters_partition :
    isPartition klemsClusterList 145
    ∧ (∀ MF : ℕ, 1 ≤ MF → ∃ cls,
        rotClusters (144 * MF ^ 2 + 1) = .ok cls
          ∧ isPartition cls (144 * MF ^ 2 + 1))
    ∧ (∃ cls, curveClusters 2305 = .ok cls ∧ isPartition cls 2305)
    ∧ isPartition (profClusters 2305) 2305
    ∧ (∀ theta : ℕ → ℚ, (∀ i, 0 ≤ theta i) → ∀ n,
        isPartition (fullResClusters theta n) n) := by
  refine ⟨klems_partition, ?_, curve_partition_2305, prof_partition,
    fullRes_partition⟩
  intro MF hMF
  exact ⟨rotClustersFrom (7 * MF) (raccList MF), rot_reinhart MF hMF,
    rot_reinhart_partition MF hMF⟩

/-- Witness for `clusters_partition`: the rotational policy at
`numCoeff = 145` (MF = 1) and the full-resolution policy with the zero
angle assignment on 3 bins. -/
theorem clusters_partition_witness :
    (∃ cls, rotClusters 145 = .ok cls ∧ isPartition cls 145)
    ∧ isPartition (fullResClusters (fun _ => 0) 3) 3 := by
  constructor
  · have h := clusters_partition.2.1 1 le_rfl
    norm_num at h
    exact h
  · exact clusters_partition.2.2.2.2 (fun _ => 0) (fun _ => le_rfl) 3

/-! ### C9: full-resolution bucket assignment -/

/-- C9 counterexample: the claim asserts that every bin index whose
recovered polar angle is `theta` lands in cluster number
`floor(theta in degrees)`.  Polar angles reach up to 90° at the fisheye
rim while only buckets `0 … 79` exist, and `digitize` puts everything at
or beyond the last boundary (79°) into bucket 79.  Quantifying the claim
over the polar-angle assignment, the assignment that gives a bin the
angle 85° refutes it: the bin lands in cluster 79, and cluster 85 does
not exist (`getD` falls back to the empty list). -/
theorem fullres_floor_cex :
    ¬ (∀ (theta : ℕ → ℚ), (∀ i, 0 ≤ theta i) → ∀ n idx, idx < n →
        idx ∈ (fullResClusters theta n).getD (⌊theta idx⌋).toNat []) := by
  intro h
  have h85 := h (fun _ => 85) (fun _ => by norm_num) 1 0 (by norm_num)
  have : (⌊(85 : ℚ)⌋).toNat = 85 := by
    have h1 : ⌊(85 : ℚ)⌋ = 85 := by norm_num
    rw [h1]
    rfl
  rw [this] at h85
  exact absurd h85 (by decide)

/-- C9 amended: `FullResSymmetry.clusters` returns exactly 80 clusters
(empty buckets kept as legitimate empty clusters), and every bin index
with polar angle `theta` (degrees, non-negative) is assigned to exactly
the cluster `min (floor theta) 79` — i.e. `floor(theta in degrees)`
whenever that floor is below 80, and the last cluster 79 for the rim
angles of 79° and above. -/
theorem fullres_clusters_spec (theta : ℕ → ℚ) (htheta : ∀ i, 0 ≤ theta i)
    (n : ℕ) :
    (fullResClusters theta n).length = 80
    ∧ ∀ idx, idx < n →
        (idx ∈ (fullResClusters theta n).getD (min ⌊theta idx⌋.toNat 79) []
        ∧ ∀ i, i < 80 →
            idx ∈ (fullResClusters theta n).getD i []
              → i = min ⌊theta idx⌋.toNat 79) := by
  have hlen : (fullResClusters theta n).length = 80 := by
    rw [fullResClusters, List.length_map, List.length_range]
  refine ⟨hlen, fun idx hidx => ⟨?_, fun i hi hmem => ?_⟩⟩
  · have hb : min ⌊theta idx⌋.toNat 79 < 80 :=
      lt_of_le_of_lt (min_le_right _ _) (by norm_num)
    rw [fullResClusters, getD_map_range _ _ _ _ hb]
    refine List.mem_filter.mpr ⟨List.mem_range.mpr hidx, ?_⟩
    rw [thetaBin_eq _ (htheta idx)]
    simp
  · rw [fullResClusters, getD_map_range _ _ _ _ hi] at hmem
    have hdec := (List.mem_filter.mp hmem).2
    have hv := of_decide_eq_true hdec
    rw [thetaBin_eq _ (htheta idx)] at hv
    exact_mod_cast hv.symm

/-- Witness for `fullres_clusters_spec`: the assignment `idx ↦ 45·idx`
on 3 bins puts bin 2 (angle 90°) into the last cluster, 79. -/
theorem fullres_clusters_spec_witness :
    (fullResClusters (fun i => 45 * (i : ℚ)) 3).length = 80
    ∧ 2 ∈ (fullResClusters (fun i => 45 * (i : ℚ)) 3).getD 79 [] := by
  have h := fullres_clusters_spec (fun i => 45 * (i : ℚ))
    (fun i => by positivity) 3
  refine ⟨h.1, ?_⟩
  have h2 := (h.2 2 (by norm_num)).1
  have hmin : min (⌊45 * ((2 : ℕ) : ℚ)⌋).toNat 79 = 79 := by norm_num
  rwa [hmin] at h2

/-! ### Fisheye pixel serialisation (`gdivmeas_fullres.py`)

`pix2Idx` maps an integer pixel `(x,y)` of a fisheye image of integer
pixel radius `radius` to its serialised index: `-1` when
`u^2 + v^2 + EPSILON > radius^2` for the recentred coordinates
`(u, v) = (x - radius, y - radius)`, otherwise
`int(segArea(v+1, radius) + 0.5) + int(0.5*chordLen(v+1, radius) + u + 1.5)`
built from the circular-segment helpers
`alpha(v,r) = 2*acos(v/r) if v <= r else 0`,
`segArea(v,r) = 0.5*r^2*(alpha - sin(alpha))` and
`chordLen(v,r) = 2*sqrt(r^2 - v^2) if v <= r else 0`.
Python's `int()` truncates toward zero (`intTrunc`).  The inside-circle
test is exact integer-plus-`EPSILON` arithmetic in ℚ (float-exact in the
source at pixel magnitudes); the transcendental index terms live in ℝ. -/

/-- Roundoff compensation constant `EPSILON = 1e-6`. -/
def EPSILON : ℚ := 1 / 1000000

/-- Python `int()`: truncation toward zero. -/
noncomputable def intTrunc (x : ℝ) : ℤ := if 0 ≤ x then ⌊x⌋ else ⌈x⌉

/-- Central angle subtended by the chord at height `v` (the `alpha`
lambda of the source). -/
noncomputable def alphaAngle (v r : ℝ) : ℝ :=
  if v ≤ r then 2 * Real.arccos (v / r) else 0

/-- Area of the circular segment at height `v` (`segArea`). -/
noncomputable def segArea (v r : ℝ) : ℝ :=
  0.5 * r ^ 2 * (alphaAngle v r - Real.sin (alphaAngle v r))

/-- Chord length at height `v` (`chordLen`). -/
noncomputable def chordLen (v r : ℝ) : ℝ :=
  if v ≤ r then 2 * Real.sqrt (r ^ 2 - v ^ 2) else 0

/-- Embedding of `pix2Idx`. -/
noncomputable def pix2Idx (pix : ℤ × ℤ) (radius : ℕ) : ℤ :=
  let u : ℤ := pix.1 - radius
  let v : ℤ := pix.2 - radius
  if ((u ^ 2 + v ^ 2 : ℤ) : ℚ) + EPSILON > ((radius : ℚ)) ^ 2 then -1
  else
    intTrunc (segArea ((v : ℝ) + 1) radius + 0.5)
      + intTrunc (0.5 * chordLen ((v : ℝ) + 1) radius + (u : ℝ) + 1.5)

/-- The bin-array size `numIdx = int(pi * rad**2 + 0.5)` preallocated by
`getCoeffs` for `radContribs` and `omegas`. -/
noncomputable def numIdx (rad : ℕ) : ℤ :=
  intTrunc (Real.pi * (rad : ℝ) ^ 2 + 0.5)

lemma intTrunc_eq_of_nonneg (x : ℝ) (n : ℤ) (hn : 0 ≤ n)
    (h1 : (n : ℝ) ≤ x) (h2 : x < n + 1) : intTrunc x = n := by
  rw [intTrunc, if_pos (le_trans (by exact_mod_cast hn) h1)]
  exact Int.floor_eq_iff.mpr ⟨h1, h2⟩

lemma intTrunc_eq_of_neg (x : ℝ) (n : ℤ) (h0 : x < 0)
    (h1 : (n : ℝ) - 1 < x) (h2 : x ≤ n) : intTrunc x = n := by
  rw [intTrunc, if_neg (not_le.mpr h0)]
  exact Int.ceil_eq_iff.mpr ⟨h1, h2⟩

lemma alphaAngle_self (r : ℝ) (hr : 0 < r) : alphaAngle r r = 0 := by
  rw [alphaAngle, if_pos le_rfl, div_self (ne_of_gt hr), Real.arccos_one,
    mul_zero]

lemma segArea_self (r : ℝ) (hr : 0 < r) : segArea r r = 0 := by
  rw [segArea, alphaAngle_self r hr, Real.sin_zero, sub_zero, mul_zero]

lemma chordLen_self (r : ℝ) (hr : 0 < r) : chordLen r r = 0 := by
  rw [chordLen, if_pos le_rfl, sub_self, Real.sqrt_zero, mul_zero]

/-- C10 counterexample: the claim asserts that whenever `pix2Idx` does
not return the `-1` sentinel, the index lies in `[0, int(pi*r^2+0.5))`.
The pixel `(6, 19)` at radius 10 lies inside the fisheye circle
(`(-4)^2 + 9^2 = 97 < 100`), yet its top row has `v + 1 = radius`, where
`segArea` and `chordLen` vanish exactly (float-exactly too:
`acos(1.0) = 0.0`, `sqrt(0.0) = 0.0`), so the index is
`int(0.5) + int(-4 + 1.5) = int(-2.5) = -2`: negative but distinct from
the sentinel, hence outside the claimed range. -/
theorem pix2idx_negative_cex :
    pix2Idx (6, 19) 10 = -2
    ∧ (((6 - 10 : ℤ) ^ 2 + (19 - 10 : ℤ) ^ 2 : ℤ) : ℚ) + EPSILON
        ≤ (10 : ℚ) ^ 2
    ∧ pix2Idx (6, 19) 10 ≠ -1
    ∧ ¬ (0 ≤ pix2Idx (6, 19) 10) := by
  have hval : pix2Idx (6, 19) 10 = -2 := by
    rw [pix2Idx]
    rw [if_neg (by rw [EPSILON]; norm_num)]
    have hseg : segArea (((19 - (10 : ℕ) : ℤ) : ℝ) + 1) (10 : ℕ) = 0 := by
      have : (((19 - (10 : ℕ) : ℤ) : ℝ) + 1) = ((10 : ℕ) : ℝ) := by
        push_cast
        norm_num
      rw [this]
      exact segArea_self _ (by norm_num)
    have hchord : chordLen (((19 - (10 : ℕ) : ℤ) : ℝ) + 1) (10 : ℕ) = 0 := by
      have : (((19 - (10 : ℕ) : ℤ) : ℝ) + 1) = ((10 : ℕ) : ℝ) := by
        push_cast
        norm_num
      rw [this]
      exact chordLen_self _ (by norm_num)
    rw [hseg, hchord]
    have h1 : intTrunc ((0 : ℝ) + 0.5) = 0 :=
      intTrunc_eq_of_nonneg _ 0 le_rfl (by norm_num) (by norm_num)
    have h2 : intTrunc (0.5 * (0 : ℝ) + ((6 - (10 : ℕ) : ℤ) : ℝ) + 1.5)
        = -2 := by
      apply intTrunc_eq_of_neg <;> push_cast <;> norm_num
    rw [h1, h2]
    norm_num
  refine ⟨hval, by rw [EPSILON]; norm_num, by rw [hval]; decide,
    by rw [hval]; decide⟩

lemma sqrt_three_gt : (1.7 : ℝ) < Real.sqrt 3 := by
  rw [show (1.7 : ℝ) = 1.7 from rfl, Real.lt_sqrt (by norm_num)]
  norm_num

lemma sqrt_three_lt : Real.sqrt 3 < 1.8 := by
  rw [Real.sqrt_lt' (by norm_num)]
  norm_num

lemma alphaAngle_zero_two : alphaAngle 0 2 = Real.pi := by
  rw [alphaAngle, if_pos (by norm_num), zero_div, Real.arccos_zero]
  ring

lemma segArea_zero_two : segArea 0 2 = 2 * Real.pi := by
  rw [segArea, alphaAngle_zero_two, Real.sin_pi]
  ring

lemma chordLen_zero_two : chordLen 0 2 = 4 := by
  rw [chordLen, if_pos (by norm_num),
    show (2 : ℝ) ^ 2 - 0 ^ 2 = 2 ^ 2 from by norm_num,
    Real.sqrt_sq (by norm_num)]
  norm_num

lemma arccos_half : Real.arccos (1 / 2) = Real.pi / 3 := by
  rw [← Real.cos_pi_div_three]
  exact Real.arccos_cos (by positivity) (by linarith [Real.pi_pos])

lemma alphaAngle_one_two : alphaAngle 1 2 = 2 * Real.pi / 3 := by
  rw [alphaAngle, if_pos (by norm_num), show (1 : ℝ) / 2 = 1 / 2 from rfl,
    arccos_half]
  ring

lemma sin_two_pi_div_three : Real.sin (2 * Real.pi / 3) = Real.sqrt 3 / 2 := by
  rw [show 2 * Real.pi / 3 = Real.pi - Real.pi / 3 from by ring,
    Real.sin_pi_sub, Real.sin_pi_div_three]

lemma segArea_one_two : segArea 1 2 = 4 * Real.pi / 3 - Real.sqrt 3 := by
  rw [segArea, alphaAngle_one_two, sin_two_pi_div_three]
  ring

lemma chordLen_one_two : chordLen 1 2 = 2 * Real.sqrt 3 := by
  rw [chordLen, if_pos (by norm_num),
    show (2 : ℝ) ^ 2 - 1 ^ 2 = 3 from by norm_num]

lemma segArea_two_two : segArea 2 2 = 0 := segArea_self 2 (by norm_num)

lemma chordLen_two_two : chordLen 2 2 = 0 := chordLen_self 2 (by norm_num)

lemma numIdx_two : numIdx 2 = 13 := by
  rw [numIdx]
  apply intTrunc_eq_of_nonneg _ 13 (by norm_num) <;> push_cast <;>
    nlinarith [Real.pi_gt_d2, Real.pi_lt_d2]

lemma iT_seg0 : intTrunc (segArea 0 2 + 0.5) = 6 := by
  rw [segArea_zero_two]
  exact intTrunc_eq_of_nonneg _ 6 (by norm_num)
    (by nlinarith [Real.pi_gt_d2]) (by nlinarith [Real.pi_lt_d2])

lemma iT_seg1 : intTrunc (segArea 1 2 + 0.5) = 2 := by
  rw [segArea_one_two]
  exact intTrunc_eq_of_nonneg _ 2 (by norm_num)
    (by nlinarith [Real.pi_gt_d2, sqrt_three_lt])
    (by nlinarith [Real.pi_lt_d2, sqrt_three_gt])

lemma iT_seg2 : intTrunc (segArea 2 2 + 0.5) = 0 := by
  rw [segArea_two_two]
  exact intTrunc_eq_of_nonneg _ 0 le_rfl (by norm_num) (by norm_num)

lemma castm1 : (((1 : ℤ) - ((2 : ℕ) : ℤ) : ℤ) : ℝ) = -1 := by
  push_cast
  norm_num

lemma cast00 : (((2 : ℤ) - ((2 : ℕ) : ℤ) : ℤ) : ℝ) = 0 := by
  push_cast
  norm_num

lemma cast01 : (((3 : ℤ) - ((2 : ℕ) : ℤ) : ℤ) : ℝ) = 1 := by
  push_cast
  norm_num

lemma castr2 : (((2 : ℕ)) : ℝ) = 2 := by norm_num

lemma addm1 : (-1 : ℝ) + 1 = 0 := by norm_num

lemma add01 : (0 : ℝ) + 1 = 1 := by norm_num

lemma add11 : (1 : ℝ) + 1 = 2 := by norm_num

lemma case_helper (a b : ℝ) (m n : ℤ) (hA : intTrunc a = m)
    (hB : intTrunc b = n) (h0 : 0 ≤ m + n) (h13 : m + n < 13) :
    0 ≤ intTrunc a + intTrunc b ∧ intTrunc a + intTrunc b < 13 := by
  rw [hA, hB]
  exact ⟨h0, h13⟩

/-- C10 amended: for a pixel inside the fisheye circle `pix2Idx` can
return negative values other than `-1` (see `pix2idx_negative_cex`), so
non-sentinel does not imply in-range; the guard that actually protects
the bin arrays in `getCoeffs` is `idx >= 0`.  At radius 2, every pixel
that does not map to the sentinel receives an index inside
`[0, int(pi*r^2+0.5)) = [0, 13)`, the preallocated bin-array range. -/
theorem pix2idx_range_rad2 (x y : ℤ) (hne : pix2Idx (x, y) 2 ≠ -1) :
    0 ≤ pix2Idx (x, y) 2 ∧ pix2Idx (x, y) 2 < numIdx 2 := by
  rw [numIdx_two]
  rw [pix2Idx] at hne ⊢
  split_ifs at hne ⊢ with hg
  · exact absurd rfl hne
  · clear hne
    push_neg at hg
    rw [EPSILON] at hg
    have hZ : (x - 2) ^ 2 + (y - 2) ^ 2 < 4 := by
      have h2 : (((x - ((2 : ℕ) : ℤ)) ^ 2 + (y - ((2 : ℕ) : ℤ)) ^ 2 : ℤ) : ℚ)
          < 4 := by
        push_cast at hg ⊢
        linarith
      push_cast at h2
      exact_mod_cast h2
    have hx3 : (x - 2) ^ 2 ≤ 3 := by nlinarith [sq_nonneg (y - 2)]
    have hy3 : (y - 2) ^ 2 ≤ 3 := by nlinarith [sq_nonneg (x - 2)]
    have hxlo : 1 ≤ x := by nlinarith [sq_nonneg (x - 1)]
    have hxhi : x ≤ 3 := by nlinarith [sq_nonneg (x - 3)]
    have hylo : 1 ≤ y := by nlinarith [sq_nonneg (y - 1)]
    have hyhi : y ≤ 3 := by nlinarith [sq_nonneg (y - 3)]
    clear hg hZ hx3 hy3
    interval_cases y <;> interval_cases x
    · rw [castm1, addm1, castr2, chordLen_zero_two]
      exact case_helper _ _ 6 2 iT_seg0
        (intTrunc_eq_of_nonneg _ 2 (by norm_num) (by norm_num) (by norm_num))
        (by norm_num) (by norm_num)
    · rw [castm1, cast00, addm1, castr2, chordLen_zero_two]
      exact case_helper _ _ 6 3 iT_seg0
        (intTrunc_eq_of_nonneg _ 3 (by norm_num) (by norm_num) (by norm_num))
        (by norm_num) (by norm_num)
    · rw [castm1, cast01, addm1, castr2, chordLen_zero_two]
      exact case_helper _ _ 6 4 iT_seg0
        (intTrunc_eq_of_nonneg _ 4 (by norm_num) (by norm_num) (by norm_num))
        (by norm_num) (by norm_num)
    · rw [castm1, cast00, add01, castr2, chordLen_one_two]
      exact case_helper _ _ 2 2 iT_seg1
        (intTrunc_eq_of_nonneg _ 2 (by norm_num)
          (by nlinarith [sqrt_three_gt]) (by nlinarith [sqrt_three_lt]))
        (by norm_num) (by norm_num)
    · rw [cast00, add01, castr2, chordLen_one_two]
      exact case_helper _ _ 2 3 iT_seg1
        (intTrunc_eq_of_nonneg _ 3 (by norm_num)
          (by nlinarith [sqrt_three_gt]) (by nlinarith [sqrt_three_lt]))
        (by norm_num) (by norm_num)
    · rw [cast00, cast01, add01, castr2, chordLen_one_two]
      exact case_helper _ _ 2 4 iT_seg1
        (intTrunc_eq_of_nonneg _ 4 (by norm_num)
          (by nlinarith [sqrt_three_gt]) (by nlinarith [sqrt_three_lt]))
        (by norm_num) (by norm_num)
    · rw [castm1, cast01, add11, castr2, chordLen_two_two]
      exact case_helper _ _ 0 0 iT_seg2
        (intTrunc_eq_of_nonneg _ 0 le_rfl (by norm_num) (by norm_num))
        (by norm_num) (by norm_num)
    · rw [cast00, cast01, add11, castr2, chordLen_two_two]
      exact case_helper _ _ 0 1 iT_seg2
        (intTrunc_eq_of_nonneg _ 1 (by norm_num) (by norm_num) (by norm_num))
        (by norm_num) (by norm_num)
    · rw [cast01, add11, castr2, chordLen_two_two]
      exact case_helper _ _ 0 2 iT_seg2
        (intTrunc_eq_of_nonneg _ 2 (by norm_num) (by norm_num) (by norm_num))
        (by norm_num) (by norm_num)

/-- Witness for `pix2idx_range_rad2`: the centre pixel `(2, 2)`. -/
theorem pix2idx_range_rad2_witness :
    0 ≤ pix2Idx (2, 2) 2 ∧ pix2Idx (2, 2) 2 < numIdx 2 := by
  apply pix2idx_range_rad2
  rw [pix2Idx, if_neg (by rw [EPSILON]; norm_num), cast00, add01, castr2,
    chordLen_one_two, iT_seg1,
    intTrunc_eq_of_nonneg (0.5 * (2 * Real.sqrt 3) + 0 + 1.5) 3 (by norm_num)
      (by nlinarith [sqrt_three_gt]) (by nlinarith [sqrt_three_lt])]
  decide

/-! ### reinhartSolidAngles (src/src/gdivsim/reinhartSolidAngles.py)

`linspace(-pi/2, pi/2, 2*MF*7+2, retstep=True)` returns the equally
spaced grid `-pi/2 + j*alpha` for `j < 2*MF*7+2` together with the step
`alpha = pi / (2*MF*7+2-1)`. -/

noncomputable def alphaStep (MF : ℕ) : ℝ := Real.pi / (14 * MF + 1)

noncomputable def linspaceSym (MF : ℕ) : List ℝ :=
  (List.range (2 * MF * 7 + 2)).map
    (fun (j : ℕ) => -(0.5 * Real.pi) + (j : ℝ) * alphaStep MF)

/-- `polarAngles = concatenate([zeros(1), polarAngles[polarAngles > 0]])`. -/
noncomputable def polarAngles (MF : ℕ) : List ℝ :=
  0 :: (linspaceSym MF).filter (fun x => decide (0 < x))

/-- `azimuthDivs = [1] + [MF * i for i in [6,12,18,24,24,30,30] for r in range(MF)]`. -/
def azimuthDivs (MF : ℕ) : List ℕ :=
  1 :: (([6, 12, 18, 24, 24, 30, 30] : List ℕ).map
    (fun i => List.replicate MF (MF * i))).flatten

/-- `polarAngM[0] = 0`, `polarAngM[t] = 0.5*(polarAngles[t] + polarAngles[t+1])`. -/
noncomputable def polarAngM (MF : ℕ) (t : ℕ) : ℝ :=
  if t = 0 then 0
  else 0.5 * ((polarAngles MF).getD t 0 + (polarAngles MF).getD (t + 1) 0)

/-- `dOmega[0] = 2*pi*(1 - cos(polarAngles[1]))`. -/
noncomputable def capOmega (MF : ℕ) : ℝ :=
  2 * Real.pi * (1 - Real.cos ((polarAngles MF).getD 1 0))

/-- `cosOmega[0] = pi*(1 - cos(polarAngles[1])**2) / dOmega[0]`. -/
noncomputable def capCosOmega (MF : ℕ) : ℝ :=
  Real.pi * (1 - Real.cos ((polarAngles MF).getD 1 0) ^ 2) / capOmega MF

/-- `dOmega` before the final reversal: the cap followed by
`sin(polarAngM[t]) * alpha * 2*pi / azimuthDivs[t]` repeated
`azimuthDivs[t]` times, for `t in range(1, nPolar - 1)`. -/
noncomputable def dOmegaPre (MF : ℕ) : List ℝ :=
  capOmega MF ::
    ((List.range' 1 ((polarAngles MF).length - 2)).map (fun t =>
      List.replicate ((azimuthDivs MF).getD t 0)
        (Real.sin (polarAngM MF t) * alphaStep MF * 2 * Real.pi /
          ((azimuthDivs MF).getD t 0 : ℝ)))).flatten

/-- `cosOmega` before the final reversal: `cos(polarAngM[t])` repeated
`azimuthDivs[t]` times, for `t in range(1, nPolar - 1)`. -/
noncomputable def cosOmegaPre (MF : ℕ) : List ℝ :=
  capCosOmega MF ::
    ((List.range' 1 ((polarAngles MF).length - 2)).map (fun t =>
      List.replicate ((azimuthDivs MF).getD t 0)
        (Real.cos (polarAngM MF t)))).flatten

/-- `return (dOmega[::-1], cosOmega[::-1])`. -/
noncomputable def reinhartSolidAngles (MF : ℕ) : List ℝ × List ℝ :=
  ((dOmegaPre MF).reverse, (cosOmegaPre MF).reverse)

lemma alphaStep_pos (MF : ℕ) : 0 < alphaStep MF := by
  unfold alphaStep
  positivity

lemma alphaStep_le (MF : ℕ) (h : 1 ≤ MF) : alphaStep MF ≤ Real.pi / 15 := by
  unfold alphaStep
  rw [div_le_div_iff₀ (by positivity) (by norm_num)]
  have h15 : (15 : ℝ) ≤ 14 * MF + 1 := by
    have : (1 : ℝ) ≤ (MF : ℝ) := by exact_mod_cast h
    linarith
  nlinarith [Real.pi_pos]

lemma polarAngles_eq (MF : ℕ) :
    polarAngles MF
      = 0 :: (List.range (7 * MF + 1)).map
          (fun (k : ℕ) => ((k : ℝ) + 1 / 2) * alphaStep MF) := by
  unfold polarAngles linspaceSym
  congr 1
  have hsplit : 2 * MF * 7 + 2 = (7 * MF + 1) + (7 * MF + 1) := by ring
  rw [hsplit, List.range_add, List.map_append, List.filter_append]
  have hD : (0 : ℝ) < 14 * MF + 1 := by positivity
  have hstep : alphaStep MF = Real.pi / (14 * MF + 1) := rfl
  have h1 : ((List.range (7 * MF + 1)).map
      (fun (j : ℕ) => -(0.5 * Real.pi) + (j : ℝ) * alphaStep MF)).filter
        (fun x => decide (0 < x)) = [] := by
    rw [List.filter_eq_nil_iff]
    intro x hx
    simp only [List.mem_map, List.mem_range] at hx
    obtain ⟨j, hj, rfl⟩ := hx
    simp only [decide_eq_true_eq, not_lt]
    rw [hstep]
    have hj' : (j : ℝ) ≤ 7 * MF := by exact_mod_cast Nat.lt_succ_iff.mp hj
    rw [div_eq_mul_inv, ← mul_assoc]
    have hle : (j : ℝ) * Real.pi ≤ 0.5 * Real.pi * (14 * MF + 1) := by
      nlinarith [Real.pi_pos]
    calc -(0.5 * Real.pi) + (j : ℝ) * Real.pi * (14 * (MF : ℝ) + 1)⁻¹
        ≤ -(0.5 * Real.pi) + 0.5 * Real.pi * (14 * MF + 1) * (14 * (MF : ℝ) + 1)⁻¹ := by
          have := inv_nonneg.mpr hD.le
          nlinarith
      _ = 0 := by
          field_simp
  have h2 : (((List.range (7 * MF + 1)).map ((7 * MF + 1) + ·)).map
      (fun (j : ℕ) => -(0.5 * Real.pi) + (j : ℝ) * alphaStep MF)).filter
        (fun x => decide (0 < x))
      = (List.range (7 * MF + 1)).map
          (fun (k : ℕ) => ((k : ℝ) + 1 / 2) * alphaStep MF) := by
    rw [List.map_map]
    have hfun : ∀ k ∈ List.range (7 * MF + 1),
        ((fun (j : ℕ) => -(0.5 * Real.pi) + (j : ℝ) * alphaStep MF) ∘
          ((7 * MF + 1) + ·)) k
          = ((k : ℝ) + 1 / 2) * alphaStep MF := by
      intro k _
      simp only [Function.comp]
      rw [hstep]
      push_cast
      field_simp
      ring
    rw [List.map_congr_left hfun]
    rw [List.filter_eq_self]
    intro x hx
    simp only [List.mem_map, List.mem_range] at hx
    obtain ⟨k, _, rfl⟩ := hx
    simp only [decide_eq_true_eq]
    have := alphaStep_pos MF
    positivity
  rw [h1, h2, List.nil_append]

lemma polarAngles_length (MF : ℕ) : (polarAngles MF).length = 7 * MF + 2 := by
  rw [polarAngles_eq]
  simp

lemma polarAngles_getD (MF k : ℕ) (hk : k < 7 * MF + 1) :
    (polarAngles MF).getD (k + 1) 0 = ((k : ℝ) + 1 / 2) * alphaStep MF := by
  rw [polarAngles_eq, List.getD_cons_succ]
  exact getD_map_range _ _ _ _ hk

lemma polarAngM_succ (MF k : ℕ) (hk : k < 7 * MF) :
    polarAngM MF (k + 1) = ((k : ℝ) + 1) * alphaStep MF := by
  unfold polarAngM
  rw [if_neg (Nat.succ_ne_zero k)]
  rw [polarAngles_getD MF k (by omega), polarAngles_getD MF (k + 1) (by omega)]
  push_cast
  ring

lemma azimuthDivs_length (MF : ℕ) : (azimuthDivs MF).length = 7 * MF + 1 := by
  simp [azimuthDivs]
  ring

lemma azimuthDivs_pos (MF : ℕ) (h : 1 ≤ MF) :
    ∀ x ∈ azimuthDivs MF, 0 < x := by
  intro x hx
  simp only [azimuthDivs, List.mem_cons, List.mem_flatten, List.mem_map] at hx
  rcases hx with rfl | ⟨l, ⟨i, hi, rfl⟩, hxl⟩
  · norm_num
  · rw [List.eq_of_mem_replicate hxl]
    have hipos : 0 < i := by
      rcases hi with rfl | rfl | rfl | rfl | rfl | rfl | rfl | hi
      · norm_num
      · norm_num
      · norm_num
      · norm_num
      · norm_num
      · norm_num
      · norm_num
      · exact absurd hi (List.not_mem_nil i)
    exact Nat.mul_pos h hipos

lemma azimuthDivs_getD_pos (MF : ℕ) (h : 1 ≤ MF) (t : ℕ) (ht : t < 7 * MF + 1) :
    0 < (azimuthDivs MF).getD t 0 := by
  have hlen : t < (azimuthDivs MF).length := by rw [azimuthDivs_length]; omega
  rw [List.getD_eq_getElem _ _ hlen]
  exact azimuthDivs_pos MF h _ (List.getElem_mem hlen)

lemma azimuthDivs_getD_last (MF : ℕ) (h : 1 ≤ MF) :
    (azimuthDivs MF).getD (7 * MF) 0 = 30 * MF := by
  have hlast : (azimuthDivs MF).getLast? = some (30 * MF) := by
    obtain ⟨m, rfl⟩ := Nat.exists_eq_add_of_le' h
    simp [azimuthDivs, List.getLast?_cons, List.getLast?_append,
      List.getLast?_replicate]
    ring
  rw [List.getLast?_eq_getElem?, azimuthDivs_length] at hlast
  simp only [Nat.add_sub_cancel] at hlast
  rw [List.getD_eq_getElem?_getD, hlast]
  rfl

lemma dOmegaPre_eq (MF : ℕ) :
    dOmegaPre MF
      = capOmega MF ::
          ((List.range (7 * MF)).map (fun (k : ℕ) =>
            List.replicate ((azimuthDivs MF).getD (k + 1) 0)
              (Real.sin (((k : ℝ) + 1) * alphaStep MF) * alphaStep MF * 2 *
                Real.pi / ((azimuthDivs MF).getD (k + 1) 0 : ℝ)))).flatten := by
  unfold dOmegaPre
  rw [polarAngles_length]
  have hn : 7 * MF + 2 - 2 = 7 * MF := by omega
  rw [hn, List.range'_eq_map_range, List.map_map]
  congr 2
  refine List.map_congr_left fun k hk => ?_
  simp only [List.mem_range] at hk
  simp only [Function.comp]
  rw [show 1 + k = k + 1 by ring, polarAngM_succ MF k hk]

lemma cosOmegaPre_eq (MF : ℕ) :
    cosOmegaPre MF
      = capCosOmega MF ::
          ((List.range (7 * MF)).map (fun (k : ℕ) =>
            List.replicate ((azimuthDivs MF).getD (k + 1) 0)
              (Real.cos (((k : ℝ) + 1) * alphaStep MF)))).flatten := by
  unfold cosOmegaPre
  rw [polarAngles_length]
  have hn : 7 * MF + 2 - 2 = 7 * MF := by omega
  rw [hn, List.range'_eq_map_range, List.map_map]
  congr 2
  refine List.map_congr_left fun k hk => ?_
  simp only [List.mem_range] at hk
  simp only [Function.comp]
  rw [show 1 + k = k + 1 by ring, polarAngM_succ MF k hk]

lemma zipWith_mul_flatten_replicate (ts : List ℕ) (n : ℕ → ℕ) (u v : ℕ → ℝ) :
    List.zipWith (· * ·)
      ((ts.map (fun t => List.replicate (n t) (u t))).flatten)
      ((ts.map (fun t => List.replicate (n t) (v t))).flatten)
      = (ts.map (fun t => List.replicate (n t) (u t * v t))).flatten := by
  induction ts with
  | nil => rfl
  | cons t ts ih =>
      simp only [List.map_cons, List.flatten_cons]
      rw [List.zipWith_append _ _ _ _ _ (by simp), ih,
        List.zipWith_replicate']

lemma sum_flatten_replicate (ts : List ℕ) (n : ℕ → ℕ) (u : ℕ → ℝ) :
    ((ts.map (fun t => List.replicate (n t) (u t))).flatten).sum
      = (ts.map (fun t => (n t : ℝ) * u t)).sum := by
  induction ts with
  | nil => rfl
  | cons t ts ih =>
      simp only [List.map_cons, List.flatten_cons, List.sum_append,
        List.sum_cons, List.sum_replicate, nsmul_eq_mul, ih]

lemma length_flatten_replicate (ts : List ℕ) (n : ℕ → ℕ) (u : ℕ → ℝ) :
    ((ts.map (fun t => List.replicate (n t) (u t))).flatten).length
      = (ts.map n).sum := by
  induction ts with
  | nil => rfl
  | cons t ts ih =>
      simp only [List.map_cons, List.flatten_cons, List.length_append,
        List.length_replicate, List.sum_cons, ih]

lemma list_sum_range (f : ℕ → ℝ) (n : ℕ) :
    ((List.range n).map f).sum = ∑ i in Finset.range n, f i := rfl

lemma list_sum_range_nat (f : ℕ → ℕ) (n : ℕ) :
    ((List.range n).map f).sum = ∑ i in Finset.range n, f i := rfl

lemma azimuthDivs_tail_sum (MF : ℕ) :
    ∑ k in Finset.range (7 * MF), (azimuthDivs MF).getD (k + 1) 0
      = 144 * MF ^ 2 := by
  have h1 : (List.range (7 * MF)).map (fun k => (azimuthDivs MF).getD (k + 1) 0)
      = (([6, 12, 18, 24, 24, 30, 30] : List ℕ).map
          (fun i => List.replicate MF (MF * i))).flatten := by
    have hlen : ((([6, 12, 18, 24, 24, 30, 30] : List ℕ).map
        (fun i => List.replicate MF (MF * i))).flatten).length = 7 * MF := by
      simp
      ring
    calc (List.range (7 * MF)).map (fun k => (azimuthDivs MF).getD (k + 1) 0)
        = (List.range (7 * MF)).map
            (fun k => ((([6, 12, 18, 24, 24, 30, 30] : List ℕ).map
              (fun i => List.replicate MF (MF * i))).flatten).getD k 0) := by
          refine List.map_congr_left fun k _ => ?_
          rw [azimuthDivs, List.getD_cons_succ]
      _ = _ := by
          rw [← hlen, mapGetD]
  have h2 : ((List.range (7 * MF)).map
      (fun k => (azimuthDivs MF).getD (k + 1) 0)).sum = 144 * MF ^ 2 := by
    rw [h1]
    simp [List.sum_replicate]
    ring
  rw [← list_sum_range_nat, h2]

lemma dOmegaPre_length (MF : ℕ) : (dOmegaPre MF).length = 144 * MF ^ 2 + 1 := by
  rw [dOmegaPre_eq, List.length_cons, length_flatten_replicate,
    list_sum_range_nat, azimuthDivs_tail_sum]

lemma cosOmegaPre_length (MF : ℕ) :
    (cosOmegaPre MF).length = 144 * MF ^ 2 + 1 := by
  rw [cosOmegaPre_eq, List.length_cons, length_flatten_replicate,
    list_sum_range_nat, azimuthDivs_tail_sum]

lemma sin_telescope (a : ℝ) (n : ℕ) :
    2 * Real.sin (a / 2) *
        (∑ t in Finset.range n, Real.sin (((t : ℝ) + 1) * a))
      = Real.cos (a / 2) - Real.cos (((n : ℝ) + 1 / 2) * a) := by
  induction n with
  | zero =>
      simp
      ring_nf
  | succ n ih =>
      rw [Finset.sum_range_succ, mul_add, ih]
      have h := Real.cos_sub_cos (((n : ℝ) + 1 / 2) * a)
        (((n : ℝ) + 1 + 1 / 2) * a)
      have e1 : ((((n : ℝ) + 1 / 2) * a + ((n : ℝ) + 1 + 1 / 2) * a) / 2)
          = ((n : ℝ) + 1) * a := by ring
      have e2 : ((((n : ℝ) + 1 / 2) * a - ((n : ℝ) + 1 + 1 / 2) * a) / 2)
          = -(a / 2) := by ring
      rw [e1, e2, Real.sin_neg] at h
      push_cast
      nlinarith [h]

lemma half_angle_pi (MF : ℕ) :
    (((7 * MF : ℕ) : ℝ) + 1 / 2) * alphaStep MF = Real.pi / 2 := by
  unfold alphaStep
  have hD : (14 * (MF : ℝ) + 1) ≠ 0 := by positivity
  field_simp
  ring

lemma capOmega_eq (MF : ℕ) :
    capOmega MF = 2 * Real.pi * (1 - Real.cos (alphaStep MF / 2)) := by
  unfold capOmega
  rw [show (1 : ℕ) = 0 + 1 from rfl, polarAngles_getD MF 0 (by omega),
    show (((0 : ℕ) : ℝ) + 1 / 2) * alphaStep MF = alphaStep MF / 2 by
      push_cast
      ring]

lemma capCosOmega_eq (MF : ℕ) :
    capCosOmega MF
      = Real.pi * (1 - Real.cos (alphaStep MF / 2) ^ 2) / capOmega MF := by
  unfold capCosOmega
  rw [show (1 : ℕ) = 0 + 1 from rfl, polarAngles_getD MF 0 (by omega),
    show (((0 : ℕ) : ℝ) + 1 / 2) * alphaStep MF = alphaStep MF / 2 by
      push_cast
      ring]

/-- The discrete polar sum `sum_(t=1)^(7MF) sin(t*alpha)`. -/
noncomputable def sinSumD (MF : ℕ) : ℝ :=
  ∑ t in Finset.range (7 * MF), Real.sin (((t : ℝ) + 1) * alphaStep MF)

/-- The discrete polar sum `sum_(t=1)^(7MF) sin(2*t*alpha)`. -/
noncomputable def sinSumP (MF : ℕ) : ℝ :=
  ∑ t in Finset.range (7 * MF), Real.sin (((t : ℝ) + 1) * (2 * alphaStep MF))

lemma sinSumD_rel (MF : ℕ) :
    2 * Real.sin (alphaStep MF / 2) * sinSumD MF
      = Real.cos (alphaStep MF / 2) := by
  unfold sinSumD
  rw [sin_telescope (alphaStep MF) (7 * MF), half_angle_pi, Real.cos_pi_div_two]
  ring

lemma halfAngle_bounds (MF : ℕ) (h : 1 ≤ MF) :
    0 < alphaStep MF / 2 ∧ alphaStep MF / 2 < Real.pi / 2 := by
  have h1 := alphaStep_pos MF
  have h2 := alphaStep_le MF h
  have h3 := Real.pi_pos
  constructor
  · linarith
  · linarith

lemma sin_half_pos (MF : ℕ) (h : 1 ≤ MF) : 0 < Real.sin (alphaStep MF / 2) := by
  obtain ⟨h1, h2⟩ := halfAngle_bounds MF h
  exact Real.sin_pos_of_pos_of_lt_pi h1 (by linarith [Real.pi_pos])

lemma cos_half_pos (MF : ℕ) (h : 1 ≤ MF) : 0 < Real.cos (alphaStep MF / 2) := by
  obtain ⟨h1, h2⟩ := halfAngle_bounds MF h
  exact Real.cos_pos_of_mem_Ioo ⟨by linarith, h2⟩

lemma sinSumP_rel (MF : ℕ) (h : 1 ≤ MF) :
    2 * Real.sin (alphaStep MF / 2) * sinSumP MF
      = Real.cos (alphaStep MF / 2) := by
  have htel := sin_telescope (2 * alphaStep MF) (7 * MF)
  have hfull : (((7 * MF : ℕ) : ℝ) + 1 / 2) * (2 * alphaStep MF) = Real.pi := by
    have := half_angle_pi MF
    nlinarith [this]
  rw [hfull, Real.cos_pi] at htel
  have hsin : Real.sin (2 * alphaStep MF / 2)
      = 2 * Real.sin (alphaStep MF / 2) * Real.cos (alphaStep MF / 2) := by
    rw [show 2 * alphaStep MF / 2 = 2 * (alphaStep MF / 2) by ring,
      Real.sin_two_mul]
  have hcos : Real.cos (2 * alphaStep MF / 2)
      = 2 * Real.cos (alphaStep MF / 2) ^ 2 - 1 := by
    rw [show 2 * alphaStep MF / 2 = 2 * (alphaStep MF / 2) by ring,
      Real.cos_two_mul]
  rw [hsin, hcos] at htel
  have hc := cos_half_pos MF h
  have hkey : Real.cos (alphaStep MF / 2) *
      (2 * Real.sin (alphaStep MF / 2) * sinSumP MF)
      = Real.cos (alphaStep MF / 2) * Real.cos (alphaStep MF / 2) := by
    unfold sinSumP
    nlinarith [htel]
  exact mul_left_cancel₀ (ne_of_gt hc) hkey

/-- Bounds on the normalised Riemann factor `alpha * T` where
`2 sin(alpha/2) T = cos(alpha/2)`. -/
lemma gTerm_bounds (MF : ℕ) (h : 1 ≤ MF) (T : ℝ)
    (hT : 2 * Real.sin (alphaStep MF / 2) * T = Real.cos (alphaStep MF / 2)) :
    Real.cos (alphaStep MF / 2) ≤ alphaStep MF * T ∧ alphaStep MF * T ≤ 1 := by
  set α := alphaStep MF with hα
  set s := Real.sin (α / 2) with hs
  set c := Real.cos (α / 2) with hc
  obtain ⟨hh1, hh2⟩ := halfAngle_bounds MF h
  have hspos : 0 < s := sin_half_pos MF h
  have hcpos : 0 < c := cos_half_pos MF h
  have hslt : s < α / 2 := Real.sin_lt hh1
  have htan : α / 2 < Real.tan (α / 2) := Real.lt_tan hh1 hh2
  rw [Real.tan_eq_sin_div_cos, lt_div_iff₀ hcpos] at htan
  constructor
  · have h5 : (α * T - c) * (2 * s) = c * (α - 2 * s) := by
      linear_combination α * hT
    nlinarith [h5, hspos, mul_nonneg hcpos.le (by linarith : (0 : ℝ) ≤ α - 2 * s)]
  · have h7 : (1 - α * T) * (2 * s) = 2 * s - α * c := by
      linear_combination (-α) * hT
    nlinarith [h7, hspos, htan]

lemma dOmegaPre_sum (MF : ℕ) (h : 1 ≤ MF) :
    (dOmegaPre MF).sum
      = 2 * Real.pi * (1 - Real.cos (alphaStep MF / 2))
        + 2 * Real.pi * alphaStep MF * sinSumD MF := by
  rw [dOmegaPre_eq, List.sum_cons, sum_flatten_replicate, list_sum_range,
    capOmega_eq]
  congr 1
  have hcongr : ∀ k ∈ Finset.range (7 * MF),
      ((azimuthDivs MF).getD (k + 1) 0 : ℝ) *
          (Real.sin (((k : ℝ) + 1) * alphaStep MF) * alphaStep MF * 2 *
            Real.pi / ((azimuthDivs MF).getD (k + 1) 0 : ℝ))
        = 2 * Real.pi * alphaStep MF *
            Real.sin (((k : ℝ) + 1) * alphaStep MF) := by
    intro k hk
    simp only [Finset.mem_range] at hk
    have haz : ((azimuthDivs MF).getD (k + 1) 0 : ℝ) ≠ 0 := by
      have := azimuthDivs_getD_pos MF h (k + 1) (by omega)
      positivity
    set a : ℝ := ((azimuthDivs MF).getD (k + 1) 0 : ℝ) with ha
    field_simp
    ring
  rw [Finset.sum_congr rfl hcongr, ← Finset.mul_sum]
  rfl

lemma capOmega_pos (MF : ℕ) (h : 1 ≤ MF) : 0 < capOmega MF := by
  rw [capOmega_eq]
  have hcpos := cos_half_pos MF h
  have hspos := sin_half_pos MF h
  have hsq := Real.sin_sq_add_cos_sq (alphaStep MF / 2)
  have hclt : Real.cos (alphaStep MF / 2) < 1 := by nlinarith
  nlinarith [Real.pi_pos]

lemma prodPre_sum (MF : ℕ) (h : 1 ≤ MF) :
    (List.zipWith (· * ·) (dOmegaPre MF) (cosOmegaPre MF)).sum
      = Real.pi * (1 - Real.cos (alphaStep MF / 2) ^ 2)
        + Real.pi * alphaStep MF * sinSumP MF := by
  rw [dOmegaPre_eq, cosOmegaPre_eq, List.zipWith_cons_cons,
    zipWith_mul_flatten_replicate, List.sum_cons, sum_flatten_replicate,
    list_sum_range]
  have hhead : capOmega MF * capCosOmega MF
      = Real.pi * (1 - Real.cos (alphaStep MF / 2) ^ 2) := by
    rw [capCosOmega_eq, capOmega_eq]
    have hcap : (2 * Real.pi * (1 - Real.cos (alphaStep MF / 2))) ≠ 0 := by
      have := capOmega_pos MF h
      rw [capOmega_eq] at this
      exact ne_of_gt this
    rw [← capOmega_eq, mul_comm (capOmega MF), div_mul_cancel₀]
    exact ne_of_gt (capOmega_pos MF h)
  rw [hhead]
  congr 1
  have hcongr : ∀ k ∈ Finset.range (7 * MF),
      ((azimuthDivs MF).getD (k + 1) 0 : ℝ) *
          (Real.sin (((k : ℝ) + 1) * alphaStep MF) * alphaStep MF * 2 *
              Real.pi / ((azimuthDivs MF).getD (k + 1) 0 : ℝ) *
            Real.cos (((k : ℝ) + 1) * alphaStep MF))
        = Real.pi * alphaStep MF *
            Real.sin (((k : ℝ) + 1) * (2 * alphaStep MF)) := by
    intro k hk
    simp only [Finset.mem_range] at hk
    have haz : ((azimuthDivs MF).getD (k + 1) 0 : ℝ) ≠ 0 := by
      have := azimuthDivs_getD_pos MF h (k + 1) (by omega)
      positivity
    have hdbl : Real.sin (((k : ℝ) + 1) * (2 * alphaStep MF))
        = 2 * Real.sin (((k : ℝ) + 1) * alphaStep MF) *
            Real.cos (((k : ℝ) + 1) * alphaStep MF) := by
      rw [show ((k : ℝ) + 1) * (2 * alphaStep MF)
            = 2 * (((k : ℝ) + 1) * alphaStep MF) by ring,
        Real.sin_two_mul]
    rw [hdbl]
    set a : ℝ := ((azimuthDivs MF).getD (k + 1) 0 : ℝ) with ha
    field_simp
    ring
  rw [Finset.sum_congr rfl hcongr, ← Finset.mul_sum]
  rfl

lemma dOmegaPre_sum_bounds (MF : ℕ) (h : 1 ≤ MF) :
    2 * Real.pi ≤ (dOmegaPre MF).sum
      ∧ (dOmegaPre MF).sum ≤ 2 * Real.pi + Real.pi * alphaStep MF ^ 2 / 4 := by
  rw [dOmegaPre_sum MF h]
  obtain ⟨hg1, hg2⟩ := gTerm_bounds MF h (sinSumD MF) (sinSumD_rel MF)
  have hcosb : 1 - (alphaStep MF / 2) ^ 2 / 2 ≤ Real.cos (alphaStep MF / 2) :=
    Real.one_sub_sq_div_two_le_cos
  have hc1 : Real.cos (alphaStep MF / 2) ≤ 1 := Real.cos_le_one _
  constructor
  · nlinarith [Real.pi_pos, hg1]
  · nlinarith [Real.pi_pos, hg2, hcosb]

lemma prodPre_sum_bounds (MF : ℕ) (h : 1 ≤ MF) :
    Real.pi ≤ (List.zipWith (· * ·) (dOmegaPre MF) (cosOmegaPre MF)).sum
      ∧ (List.zipWith (· * ·) (dOmegaPre MF) (cosOmegaPre MF)).sum
          ≤ Real.pi + Real.pi * alphaStep MF ^ 2 / 4 := by
  rw [prodPre_sum MF h]
  obtain ⟨hg1, hg2⟩ := gTerm_bounds MF h (sinSumP MF) (sinSumP_rel MF h)
  have hcpos := cos_half_pos MF h
  have hc1 : Real.cos (alphaStep MF / 2) ≤ 1 := Real.cos_le_one _
  have hspos := sin_half_pos MF h
  have hslt : Real.sin (alphaStep MF / 2) < alphaStep MF / 2 :=
    Real.sin_lt (halfAngle_bounds MF h).1
  have hsq := Real.sin_sq_add_cos_sq (alphaStep MF / 2)
  have h1 : Real.pi * Real.cos (alphaStep MF / 2)
      ≤ Real.pi * (alphaStep MF * sinSumP MF) :=
    mul_le_mul_of_nonneg_left hg1 Real.pi_pos.le
  have h0 : Real.pi * Real.cos (alphaStep MF / 2) ^ 2
      ≤ Real.pi * Real.cos (alphaStep MF / 2) := by
    nlinarith [mul_pos Real.pi_pos hcpos, hc1]
  have hs2 : Real.sin (alphaStep MF / 2) ^ 2 ≤ (alphaStep MF / 2) ^ 2 := by
    nlinarith [hslt, hspos]
  have h2 : Real.pi * (alphaStep MF * sinSumP MF) ≤ Real.pi := by
    nlinarith [hg2, Real.pi_pos]
  have hsqpi : Real.pi * Real.sin (alphaStep MF / 2) ^ 2
      + Real.pi * Real.cos (alphaStep MF / 2) ^ 2 = Real.pi := by
    linear_combination Real.pi * hsq
  constructor
  · nlinarith [h1, h0, hsqpi]
  · nlinarith [h2, hsqpi, mul_le_mul_of_nonneg_left hs2 Real.pi_pos.le]

lemma reinhart_sum_fst (MF : ℕ) :
    ((reinhartSolidAngles MF).1).sum = (dOmegaPre MF).sum := by
  unfold reinhartSolidAngles
  exact List.sum_reverse _

lemma reinhart_sum_prod (MF : ℕ) :
    (List.zipWith (· * ·) (reinhartSolidAngles MF).1
        (reinhartSolidAngles MF).2).sum
      = (List.zipWith (· * ·) (dOmegaPre MF) (cosOmegaPre MF)).sum := by
  unfold reinhartSolidAngles
  rw [← List.reverse_zipWith (by rw [dOmegaPre_length, cosOmegaPre_length])]
  exact List.sum_reverse _

lemma alphaStep_tendsto :
    Filter.Tendsto alphaStep Filter.atTop (nhds 0) := by
  have h1 : Filter.Tendsto (fun MF : ℕ => 14 * (MF : ℝ) + 1)
      Filter.atTop Filter.atTop :=
    Filter.tendsto_atTop_add_const_right _ 1
      (Filter.Tendsto.const_mul_atTop (by norm_num)
        tendsto_natCast_atTop_atTop)
  have h3 : Filter.Tendsto (fun MF : ℕ => Real.pi * (14 * (MF : ℝ) + 1)⁻¹)
      Filter.atTop (nhds (Real.pi * 0)) :=
    Filter.Tendsto.const_mul Real.pi h1.inv_tendsto_atTop
  rw [mul_zero] at h3
  refine h3.congr fun MF => ?_
  exact (div_eq_mul_inv _ _).symm

lemma errBound_tendsto (L : ℝ) :
    Filter.Tendsto (fun MF : ℕ => L + Real.pi * alphaStep MF ^ 2 / 4)
      Filter.atTop (nhds L) := by
  have h1 : Filter.Tendsto (fun MF : ℕ => Real.pi * alphaStep MF ^ 2 / 4)
      Filter.atTop (nhds (Real.pi * (0 : ℝ) ^ 2 / 4)) :=
    ((alphaStep_tendsto.pow 2).const_mul Real.pi).div_const 4
  rw [show Real.pi * (0 : ℝ) ^ 2 / 4 = 0 by norm_num] at h1
  have h2 := h1.const_add L
  simpa using h2

lemma reinhart_head (MF : ℕ) (h : 1 ≤ MF) :
    ((reinhartSolidAngles MF).1).headD 0
      = Real.sin (7 * (MF : ℝ) * alphaStep MF) * alphaStep MF * 2 * Real.pi
          / (30 * (MF : ℝ)) := by
  obtain ⟨m, rfl⟩ := Nat.exists_eq_add_of_le' h
  unfold reinhartSolidAngles
  rw [List.headD_eq_head?_getD, List.head?_reverse]
  rw [dOmegaPre_eq, show 7 * (m + 1) = (7 * m + 6) + 1 by ring,
    List.range_succ, List.map_append, List.flatten_append]
  simp only [List.map_cons, List.map_nil, List.flatten_cons, List.flatten_nil,
    List.append_nil]
  rw [show 7 * m + 6 + 1 = 7 * (m + 1) by ring,
    azimuthDivs_getD_last (m + 1) h]
  rw [List.getLast?_cons, List.getLast?_append, List.getLast?_replicate]
  have h30 : 30 * (m + 1) ≠ 0 := by omega
  rw [if_neg h30]
  simp only [Option.or_some, Option.getD_some]
  push_cast
  ring_nf

lemma reinhart_fst_last (MF : ℕ) :
    ((reinhartSolidAngles MF).1).getLastD 0 = capOmega MF := by
  unfold reinhartSolidAngles
  rw [List.getLastD_eq_getLast?, List.getLast?_reverse]
  rfl

lemma reinhart_snd_last (MF : ℕ) :
    ((reinhartSolidAngles MF).2).getLastD 0 = capCosOmega MF := by
  unfold reinhartSolidAngles
  rw [List.getLastD_eq_getLast?, List.getLast?_reverse]
  rfl

/-- C4 counterexample: the claim places the polar cap at returned element 0,
but the code reverses the arrays, so element 0 is the horizon bin.  At
MF = 1 the first returned solid angle differs from the spherical-cap value
`2*pi*(1 - cos(polarAngles[1]))` (which instead sits at the END of the
returned array). -/
theorem reinhart_cap_position_cex :
    ((reinhartSolidAngles 1).1).headD 0 ≠ capOmega 1 := by
  rw [reinhart_head 1 le_rfl, capOmega_eq]
  have hα : alphaStep 1 = Real.pi / 15 := by
    unfold alphaStep
    norm_num
  rw [hα]
  have hsin : Real.sin (7 * ((1 : ℕ) : ℝ) * (Real.pi / 15))
      = Real.cos (Real.pi / 30) := by
    rw [show 7 * ((1 : ℕ) : ℝ) * (Real.pi / 15)
          = Real.pi / 2 - Real.pi / 30 by push_cast; ring,
      Real.sin_pi_div_two_sub]
  rw [hsin, show Real.pi / 15 / 2 = Real.pi / 30 by ring]
  apply ne_of_gt
  have hc : 1 - (Real.pi / 30) ^ 2 / 2 ≤ Real.cos (Real.pi / 30) :=
    Real.one_sub_sq_div_two_le_cos
  have hπ1 : 3.14 < Real.pi := Real.pi_gt_d2
  have hπ2 : Real.pi < 3.15 := Real.pi_lt_d2
  have hp2 : Real.pi ^ 2 < 9.9225 := by nlinarith
  have hclow : (0.994 : ℝ) ≤ Real.cos (Real.pi / 30) := by nlinarith
  push_cast
  nlinarith [mul_pos (show (0 : ℝ) < Real.pi by linarith)
    (show (0 : ℝ) < Real.cos (Real.pi / 30) by linarith)]

/-- C4 amended: `reinhartSolidAngles(MF)` returns two sequences of length
`144*MF^2 + 1`; after the end-to-end reversal the polar cap — solid angle
`2*pi*(1 - cos(theta1))` with `theta1 = alpha/2`, cosine entry
`pi*(1 - cos(theta1)^2)` divided by that solid angle — is the LAST
returned element, while returned element 0 is the outermost (horizon)
ring bin `sin(7*MF*alpha) * alpha * 2*pi / (30*MF)`. -/
theorem reinhart_arrays_spec (MF : ℕ) (h : 1 ≤ MF) :
    ((reinhartSolidAngles MF).1).length = 144 * MF ^ 2 + 1
      ∧ ((reinhartSolidAngles MF).2).length = 144 * MF ^ 2 + 1
      ∧ ((reinhartSolidAngles MF).1).getLastD 0
          = 2 * Real.pi * (1 - Real.cos (alphaStep MF / 2))
      ∧ ((reinhartSolidAngles MF).2).getLastD 0
          = Real.pi * (1 - Real.cos (alphaStep MF / 2) ^ 2) /
              (2 * Real.pi * (1 - Real.cos (alphaStep MF / 2)))
      ∧ ((reinhartSolidAngles MF).1).headD 0
          = Real.sin (7 * (MF : ℝ) * alphaStep MF) * alphaStep MF * 2 *
              Real.pi / (30 * (MF : ℝ)) := by
  refine ⟨?_, ?_, ?_, ?_, reinhart_head MF h⟩
  · unfold reinhartSolidAngles
    rw [List.length_reverse, dOmegaPre_length]
  · unfold reinhartSolidAngles
    rw [List.length_reverse, cosOmegaPre_length]
  · rw [reinhart_fst_last, capOmega_eq]
  · rw [reinhart_snd_last, capCosOmega_eq, capOmega_eq]

/-- Witness for `reinhart_arrays_spec` at `MF = 1`. -/
theorem reinhart_arrays_spec_witness :
    ((reinhartSolidAngles 1).1).length = 144 * 1 ^ 2 + 1
      ∧ ((reinhartSolidAngles 1).2).length = 144 * 1 ^ 2 + 1
      ∧ ((reinhartSolidAngles 1).1).getLastD 0
          = 2 * Real.pi * (1 - Real.cos (alphaStep 1 / 2))
      ∧ ((reinhartSolidAngles 1).2).getLastD 0
          = Real.pi * (1 - Real.cos (alphaStep 1 / 2) ^ 2) /
              (2 * Real.pi * (1 - Real.cos (alphaStep 1 / 2)))
      ∧ ((reinhartSolidAngles 1).1).headD 0
          = Real.sin (7 * ((1 : ℕ) : ℝ) * alphaStep 1) * alphaStep 1 * 2 *
              Real.pi / (30 * ((1 : ℕ) : ℝ)) :=
  reinhart_arrays_spec 1 (by norm_num)

/-- C7: as MF grows, the sum of the returned differential solid angles
tends to `2*pi` (the hemisphere's solid angle) and the sum of the products
`dOmega * cosOmega` tends to `pi` (the hemisphere's projected solid
angle); for every `MF >= 8` both relative errors are below 1%. -/
theorem reinhart_sums_converge :
    Filter.Tendsto (fun MF : ℕ => ((reinhartSolidAngles MF).1).sum)
        Filter.atTop (nhds (2 * Real.pi))
      ∧ Filter.Tendsto (fun MF : ℕ =>
            (List.zipWith (· * ·) (reinhartSolidAngles MF).1
              (reinhartSolidAngles MF).2).sum)
          Filter.atTop (nhds Real.pi)
      ∧ ∀ MF : ℕ, 8 ≤ MF →
          |((reinhartSolidAngles MF).1).sum - 2 * Real.pi|
              < 0.01 * (2 * Real.pi)
            ∧ |(List.zipWith (· * ·) (reinhartSolidAngles MF).1
                  (reinhartSolidAngles MF).2).sum - Real.pi|
                < 0.01 * Real.pi := by
  refine ⟨?_, ?_, ?_⟩
  · refine tendsto_of_tendsto_of_tendsto_of_le_of_le' tendsto_const_nhds
      (errBound_tendsto (2 * Real.pi)) ?_ ?_
    · filter_upwards [Filter.eventually_ge_atTop 1] with MF hMF
      rw [reinhart_sum_fst]
      exact (dOmegaPre_sum_bounds MF hMF).1
    · filter_upwards [Filter.eventually_ge_atTop 1] with MF hMF
      rw [reinhart_sum_fst]
      exact (dOmegaPre_sum_bounds MF hMF).2
  · refine tendsto_of_tendsto_of_tendsto_of_le_of_le' tendsto_const_nhds
      (errBound_tendsto Real.pi) ?_ ?_
    · filter_upwards [Filter.eventually_ge_atTop 1] with MF hMF
      rw [reinhart_sum_prod]
      exact (prodPre_sum_bounds MF hMF).1
    · filter_upwards [Filter.eventually_ge_atTop 1] with MF hMF
      rw [reinhart_sum_prod]
      exact (prodPre_sum_bounds MF hMF).2
  · intro MF h8
    have h1 : 1 ≤ MF := by omega
    have hb := dOmegaPre_sum_bounds MF h1
    have hp := prodPre_sum_bounds MF h1
    have hαpos := alphaStep_pos MF
    have hαsm : alphaStep MF < 0.03 := by
      unfold alphaStep
      rw [div_lt_iff₀ (by positivity)]
      have hMF : (8 : ℝ) ≤ (MF : ℝ) := by exact_mod_cast h8
      nlinarith [Real.pi_lt_d2]
    have hq : (0 : ℝ) < 0.01 - alphaStep MF ^ 2 / 4 := by
      nlinarith [hαpos, hαsm]
    have herr : Real.pi * alphaStep MF ^ 2 / 4 < 0.01 * Real.pi := by
      nlinarith [mul_pos Real.pi_pos hq]
    rw [reinhart_sum_fst, reinhart_sum_prod]
    constructor
    · rw [abs_lt]
      constructor
      · nlinarith [hb.1, Real.pi_pos]
      · nlinarith [hb.2, herr, Real.pi_pos]
    · rw [abs_lt]
      constructor
      · nlinarith [hp.1, Real.pi_pos]
      · nlinarith [hp.2, herr, Real.pi_pos]

/-- Witness for `reinhart_sums_converge`: the error bound at `MF = 8`. -/
theorem reinhart_sums_converge_witness :
    |((reinhartSolidAngles 8).1).sum - 2 * Real.pi| < 0.01 * (2 * Real.pi)
      ∧ |(List.zipWith (· * ·) (reinhartSolidAngles 8).1
            (reinhartSolidAngles 8).2).sum - Real.pi| < 0.01 * Real.pi :=
  reinhart_sums_converge.2.2 8 (by norm_num)
